import Mathlib

/-!
Verification development for the Thomson-problem energy-minimization engine
of `src/ThomsonProblem/script.js`: the energy model, the projected gradient
descent local optimizer, the genetic-algorithm population step
(selection / crossover / mutation), and the convex-hull edge grouping
analyzer.  Real-number (`ℝ`) arithmetic stands for JavaScript numbers, and
the `Math.random()` stream is made explicit as oracle parameters, so that
every source function becomes a pure Lean function of its inputs and its
random draws.
-/

namespace Thomson

noncomputable section

/-- A 3-component vector, the shallow embedding of `THREE.Vector3`
(only the components; methods are modelled as functions below). -/
structure Vec3 where
  x : ℝ
  y : ℝ
  z : ℝ

namespace Vec3

instance : Inhabited Vec3 := ⟨⟨0, 0, 0⟩⟩

/-- `THREE.Vector3.add` (componentwise sum). -/
def add (a b : Vec3) : Vec3 := ⟨a.x + b.x, a.y + b.y, a.z + b.z⟩

/-- `THREE.Vector3.sub` / `subVectors` (componentwise difference). -/
def sub (a b : Vec3) : Vec3 := ⟨a.x - b.x, a.y - b.y, a.z - b.z⟩

/-- `THREE.Vector3.multiplyScalar`. -/
def smul (c : ℝ) (a : Vec3) : Vec3 := ⟨c * a.x, c * a.y, c * a.z⟩

/-- `THREE.Vector3.dot`. -/
def dot (a b : Vec3) : ℝ := a.x * b.x + a.y * b.y + a.z * b.z

/-- `THREE.Vector3.lengthSq`. -/
def lengthSq (a : Vec3) : ℝ := a.x * a.x + a.y * a.y + a.z * a.z

/-- `THREE.Vector3.length` (Euclidean norm). -/
def len (a : Vec3) : ℝ := Real.sqrt a.lengthSq

/-- `THREE.Vector3.distanceTo`. -/
def distanceTo (a b : Vec3) : ℝ := len (sub a b)

/-- `THREE.Vector3.normalize`: divides by the length, or by `1` when the
length is `0` (THREE uses `divideScalar(this.length() || 1)`), so the zero
vector is left unchanged. -/
def normalize (a : Vec3) : Vec3 := if len a = 0 then a else smul (1 / len a) a

@[simp] theorem add_mk (a b c d e f : ℝ) :
    add ⟨a, b, c⟩ ⟨d, e, f⟩ = ⟨a + d, b + e, c + f⟩ := rfl

@[simp] theorem sub_mk (a b c d e f : ℝ) :
    sub ⟨a, b, c⟩ ⟨d, e, f⟩ = ⟨a - d, b - e, c - f⟩ := rfl

@[simp] theorem smul_mk (k a b c : ℝ) :
    smul k ⟨a, b, c⟩ = ⟨k * a, k * b, k * c⟩ := rfl

@[simp] theorem dot_mk (a b c d e f : ℝ) :
    dot ⟨a, b, c⟩ ⟨d, e, f⟩ = a * d + b * e + c * f := rfl

@[simp] theorem lengthSq_mk (a b c : ℝ) :
    lengthSq ⟨a, b, c⟩ = a * a + b * b + c * c := rfl

theorem lengthSq_nonneg (a : Vec3) : 0 ≤ a.lengthSq := by
  have hx := mul_self_nonneg a.x
  have hy := mul_self_nonneg a.y
  have hz := mul_self_nonneg a.z
  unfold lengthSq; linarith

theorem len_nonneg (a : Vec3) : 0 ≤ a.len := Real.sqrt_nonneg _

theorem len_sq (a : Vec3) : a.len * a.len = a.lengthSq := by
  unfold len
  exact Real.mul_self_sqrt a.lengthSq_nonneg

theorem lengthSq_smul (c : ℝ) (a : Vec3) :
    (smul c a).lengthSq = c ^ 2 * a.lengthSq := by
  cases a; simp [lengthSq]; ring

theorem lengthSq_eq_zero_iff (a : Vec3) :
    a.lengthSq = 0 ↔ a = ⟨0, 0, 0⟩ := by
  cases a with
  | mk ax ay az =>
    constructor
    · intro h
      have hx := mul_self_nonneg ax
      have hy := mul_self_nonneg ay
      have hz := mul_self_nonneg az
      simp only [lengthSq_mk] at h
      have hax : ax * ax = 0 := by linarith
      have hay : ay * ay = 0 := by linarith
      have haz : az * az = 0 := by linarith
      simp only [mul_self_eq_zero] at hax hay haz
      simp [hax, hay, haz]
    · intro h
      rw [h]; simp [lengthSq]

theorem len_eq_zero_iff (a : Vec3) : a.len = 0 ↔ a.lengthSq = 0 := by
  unfold len
  constructor
  · intro h
    exact le_antisymm (Real.sqrt_eq_zero'.mp h) a.lengthSq_nonneg
  · intro h
    rw [h, Real.sqrt_zero]

/-- The unit-norm predicate on points: the configuration invariant. -/
def IsUnit (a : Vec3) : Prop := a.lengthSq = 1

theorem len_of_isUnit {a : Vec3} (h : IsUnit a) : a.len = 1 := by
  unfold len
  rw [h]
  exact Real.sqrt_one

/-- `normalize` of a vector of nonzero square norm is a unit vector. -/
theorem isUnit_normalize {a : Vec3} (h : a.lengthSq ≠ 0) : IsUnit a.normalize := by
  have hlen : a.len ≠ 0 := fun hl => h ((len_eq_zero_iff a).mp hl)
  unfold normalize
  rw [if_neg hlen]
  unfold IsUnit
  rw [lengthSq_smul]
  have : a.len ^ 2 = a.lengthSq := by rw [sq]; exact a.len_sq
  field_simp
  rw [this]

end Vec3

/-- `ThomsonSimulation.randomPointOnSphere`, with the two `Math.random()`
draws `u, v` made explicit: `θ = 2πu`, `φ = arccos(2v − 1)`, returning
`(sin φ cos θ, sin φ sin θ, cos φ)`. -/
def randomPointOnSphere (u v : ℝ) : Vec3 :=
  let theta := 2 * Real.pi * u
  let phi := Real.arccos (2 * v - 1)
  ⟨Real.sin phi * Real.cos theta, Real.sin phi * Real.sin theta, Real.cos phi⟩

/-- The spherical-coordinate identity: any point of the form
`(sin φ cos θ, sin φ sin θ, cos φ)` has unit square norm. -/
theorem isUnit_spherical (theta phi : ℝ) :
    (Vec3.mk (Real.sin phi * Real.cos theta) (Real.sin phi * Real.sin theta)
      (Real.cos phi)).IsUnit := by
  have hs := Real.sin_sq_add_cos_sq phi
  have hc := Real.sin_sq_add_cos_sq theta
  unfold Vec3.IsUnit Vec3.lengthSq
  simp only
  have h2 : Real.sin phi * Real.cos theta * (Real.sin phi * Real.cos theta) +
        Real.sin phi * Real.sin theta * (Real.sin phi * Real.sin theta) +
        Real.cos phi * Real.cos phi =
      Real.sin phi ^ 2 * (Real.sin theta ^ 2 + Real.cos theta ^ 2) +
        Real.cos phi ^ 2 := by ring
  rw [h2, hc]
  linarith

/-- Every point sampled by `randomPointOnSphere` lies exactly on the unit
sphere. -/
theorem isUnit_randomPointOnSphere (u v : ℝ) :
    (randomPointOnSphere u v).IsUnit := by
  unfold randomPointOnSphere
  exact isUnit_spherical _ _

/-- One pair's contribution inside `ThomsonSimulation.calculateEnergy`:
`1/dist` when `dist > 1e-9`, else the collision penalty `1e9`. -/
def pairEnergy (p q : Vec3) : ℝ :=
  let dist := p.distanceTo q
  if dist > 1e-9 then 1 / dist else 1e9

/-- The inner loop (`for j in i+1..`) of `calculateEnergy`: the sum of the
contributions of `p` against each later point. -/
def rowEnergy (p : Vec3) (rest : List Vec3) : ℝ :=
  (rest.map (pairEnergy p)).sum

/-- `ThomsonSimulation.calculateEnergy`: the double loop over pairs
`i < j`, rendered as structural recursion (row `i` plus the remaining
rows). -/
def calculateEnergy : List Vec3 → ℝ
  | [] => 0
  | p :: rest => rowEnergy p rest + calculateEnergy rest

/-- The specification-side energy: the sum over all index pairs `i < j`
of the pair contribution (spec §4.1: "Σ over all unordered pairs (i<j) of
1/distance(i,j)", with the `1e-9 ↦ 1e9` collision penalty). -/
def specEnergy (pts : List Vec3) : ℝ :=
  ∑ ij ∈ (Finset.range pts.length ×ˢ Finset.range pts.length).filter
      (fun ij => ij.1 < ij.2),
    pairEnergy (pts.getD ij.1 default) (pts.getD ij.2 default)

theorem rowEnergy_eq_sum_range (p : Vec3) (rest : List Vec3) :
    rowEnergy p rest =
      ∑ j ∈ Finset.range rest.length, pairEnergy p (rest.getD j default) := by
  induction rest with
  | nil => simp [rowEnergy]
  | cons q t ih =>
    simp only [rowEnergy, List.map_cons, List.sum_cons, List.length_cons] at *
    rw [Finset.sum_range_succ']
    simp only [List.getD_cons_succ, List.getD_cons_zero]
    rw [← ih]
    ring

/-- The loop of `calculateEnergy` computes exactly the sum over index pairs
`i < j` of the guarded inverse-distance contribution. -/
theorem calculateEnergy_eq_specEnergy (pts : List Vec3) :
    calculateEnergy pts = specEnergy pts := by
  induction pts with
  | nil => simp [calculateEnergy, specEnergy]
  | cons p rest ih =>
    rw [calculateEnergy, ih]
    unfold specEnergy
    rw [List.length_cons]
    -- Reindex the (n+1)-point pair sum: row 0 plus the shifted pair sum.
    have hsplit :
        ((Finset.range (rest.length + 1) ×ˢ Finset.range (rest.length + 1)).filter
            (fun ij => ij.1 < ij.2)) =
          ((Finset.range (rest.length + 1)).filter (fun j => 0 < j)).image
              (fun j => ((0 : ℕ), j)) ∪
          (((Finset.range rest.length ×ˢ Finset.range rest.length).filter
              (fun ij => ij.1 < ij.2)).image (fun ij => (ij.1 + 1, ij.2 + 1))) := by
      ext ⟨i, j⟩
      simp only [Finset.mem_union, Finset.mem_image, Finset.mem_filter,
        Finset.mem_product, Finset.mem_range, Prod.mk.injEq, Prod.exists]
      constructor
      · rintro ⟨⟨hi, hj⟩, hij⟩
        cases i with
        | zero => exact Or.inl ⟨j, ⟨hj, hij⟩, rfl, rfl⟩
        | succ i' =>
          right
          cases j with
          | zero => omega
          | succ j' => exact ⟨i', j', ⟨⟨by omega, by omega⟩, by omega⟩, rfl, rfl⟩
      · rintro (⟨j', ⟨hj, hjpos⟩, hi0, hjj⟩ | ⟨i', j', ⟨⟨hi, hj⟩, hij⟩, hii, hjj⟩)
        · subst hi0; subst hjj; exact ⟨⟨by omega, hj⟩, hjpos⟩
        · subst hii; subst hjj; exact ⟨⟨by omega, by omega⟩, by omega⟩
    rw [hsplit]
    rw [Finset.sum_union]
    · congr 1
      · -- row 0
        rw [Finset.sum_image (by intro a _ b _ h; simpa using h)]
        have : ((Finset.range (rest.length + 1)).filter (fun j => 0 < j)) =
            (Finset.range rest.length).image (fun j => j + 1) := by
          ext j
          simp only [Finset.mem_filter, Finset.mem_range, Finset.mem_image]
          constructor
          · intro ⟨hj, hjpos⟩
            exact ⟨j - 1, by omega, by omega⟩
          · rintro ⟨j', hj', rfl⟩
            omega
        rw [this, Finset.sum_image (by intro a _ b _ h; omega)]
        rw [rowEnergy_eq_sum_range]
        apply Finset.sum_congr rfl
        intro j _
        simp
      · -- shifted rows
        rw [Finset.sum_image]
        · apply Finset.sum_congr rfl
          intro ⟨i, j⟩ _
          simp
        · intro a _ b _ h
          simp only [Prod.mk.injEq] at h
          exact Prod.ext (by omega) (by omega)
    · -- disjointness: row 0 has first component 0, the shift has ≥ 1
      rw [Finset.disjoint_left]
      rintro ⟨i, j⟩ hmem hmem'
      simp only [Finset.mem_image, Finset.mem_filter, Finset.mem_range,
        Prod.mk.injEq, Prod.exists] at hmem hmem'
      obtain ⟨j', _, hi0, _⟩ := hmem
      obtain ⟨a, b, _, hia, _⟩ := hmem'
      omega

/-- `calculateEnergy` of the empty and singleton configurations is `0`
(no pairs). -/
theorem calculateEnergy_short (pts : List Vec3) (h : pts.length ≤ 1) :
    calculateEnergy pts = 0 := by
  match pts, h with
  | [], _ => rfl
  | [p], _ => simp [calculateEnergy, rowEnergy]

/-- For two points at distance above the collision cutoff the energy is
exactly the inverse distance. -/
theorem calculateEnergy_pair (p q : Vec3) (h : p.distanceTo q > 1e-9) :
    calculateEnergy [p, q] = 1 / p.distanceTo q := by
  simp [calculateEnergy, rowEnergy, pairEnergy, h]

/-! ### Vector algebra helper lemmas -/

theorem Vec3.dot_comm (a b : Vec3) : a.dot b = b.dot a := by
  cases a; cases b; simp [Vec3.dot]; ring

theorem Vec3.lengthSq_eq_dot (a : Vec3) : a.lengthSq = a.dot a := by
  cases a; simp [Vec3.dot, Vec3.lengthSq]

theorem Vec3.dot_sub_left (a b c : Vec3) : (a.sub b).dot c = a.dot c - b.dot c := by
  cases a; cases b; cases c; simp [Vec3.dot, Vec3.sub]; ring

theorem Vec3.dot_smul_left (k : ℝ) (a b : Vec3) :
    (Vec3.smul k a).dot b = k * a.dot b := by
  cases a; cases b; simp [Vec3.dot, Vec3.smul]; ring

theorem Vec3.dot_smul_right (k : ℝ) (a b : Vec3) :
    a.dot (Vec3.smul k b) = k * a.dot b := by
  cases a; cases b; simp [Vec3.dot, Vec3.smul]; ring

theorem Vec3.lengthSq_add (a b : Vec3) :
    (a.add b).lengthSq = a.lengthSq + 2 * a.dot b + b.lengthSq := by
  cases a; cases b; simp [Vec3.add, Vec3.dot, Vec3.lengthSq]; ring

/-! ### The local optimizer: `ThomsonSimulation.gradientDescent` -/

/-- The iteration order of the double loop `for i; for j = i+1 ..` over
index pairs of an `n`-element list. -/
def pairList (n : ℕ) : List (ℕ × ℕ) :=
  (List.range n).flatMap (fun i => (List.range' (i + 1) (n - (i + 1))).map (fun j => (i, j)))

theorem mem_pairList {n i j : ℕ} : (i, j) ∈ pairList n ↔ i < j ∧ j < n := by
  unfold pairList
  simp only [List.mem_flatMap, List.mem_map, List.mem_range, List.mem_range'_1,
    Prod.mk.injEq]
  constructor
  · rintro ⟨a, ha, b, ⟨hb1, hb2⟩, rfl, rfl⟩
    omega
  · rintro ⟨hij, hj⟩
    exact ⟨i, by omega, j, ⟨by omega, by omega⟩, rfl, rfl⟩

/-- One pass of the inner force loop of `gradientDescent`: adds the pair
`(i, j)`'s repulsive contribution `diff / dist³` (Newton's third law signs)
into the force accumulator list, skipping pairs below the `1e-9` distance
guard. -/
def applyPairForce (pts : List Vec3) (forces : List Vec3) (ij : ℕ × ℕ) : List Vec3 :=
  let diff := (pts.getD ij.1 default).sub (pts.getD ij.2 default)
  let distSq := diff.lengthSq
  let dist := Real.sqrt distSq
  if dist > 1e-9 then
    let forceMag := 1 / (distSq * dist)
    let force := Vec3.smul forceMag diff
    let f1 := forces.set ij.1 ((forces.getD ij.1 default).add force)
    f1.set ij.2 ((f1.getD ij.2 default).sub force)
  else forces

/-- The force accumulation loop of `gradientDescent`: fold the pair loop
over a zero-initialized force array. -/
def computeForces (pts : List Vec3) : List Vec3 :=
  (pairList pts.length).foldl (applyPairForce pts) (List.replicate pts.length default)

/-- The per-point update of `gradientDescent`: project the accumulated
force onto the tangent plane at the point (subtract the component along
the point), advance by `force * lr`, then re-normalize onto the sphere. -/
def gdUpdatePoint (lr : ℝ) (p f : Vec3) : Vec3 :=
  let normal := p
  let d := f.dot normal
  let ft := f.sub (Vec3.smul d normal)
  (p.add (Vec3.smul lr ft)).normalize

/-- One full iteration of the `while` loop body of `gradientDescent`:
compute all pair forces from the current positions, then update every
point. -/
def gdStep (lr : ℝ) (pts : List Vec3) : List Vec3 :=
  List.zipWith (gdUpdatePoint lr) pts (computeForces pts)

/-- The iteration safety cap of `gradientDescent` (`maxIter` in the
source). -/
def maxIter : ℕ := 10000

/-- The `while` guard `deltaEnergy > convergenceThreshold`, where
`deltaEnergy` starts as `Infinity` (modelled as `none`). -/
def deltaGT (threshold : ℝ) : Option ℝ → Prop
  | none => True
  | some x => threshold < x

instance (threshold : ℝ) (d : Option ℝ) : Decidable (deltaGT threshold d) :=
  match d with
  | none => isTrue trivial
  | some x => inferInstanceAs (Decidable (threshold < x))

/-- The convergence loop of `gradientDescent`, with the remaining
iteration budget as fuel (`maxIter − iter`).  Returns the final point
list together with the list of all total-energy evaluations made
(the initial one, then one per executed iteration). -/
def gdAux (lr threshold : ℝ) : ℕ → List Vec3 → ℝ → Option ℝ → List Vec3 × List ℝ
  | 0, pts, cur, _ => (pts, [cur])
  | fuel + 1, pts, cur, delta =>
    if deltaGT threshold delta then
      let pts2 := gdStep lr pts
      let e2 := calculateEnergy pts2
      let r := gdAux lr threshold fuel pts2 e2 (some |cur - e2|)
      (r.1, cur :: r.2)
    else (pts, [cur])

/-- `ThomsonSimulation.gradientDescent(points, lr)`: run the convergence
loop from the initial energy with `deltaEnergy = Infinity`, up to
`maxIter` iterations, returning the resulting points. -/
def gradientDescent (lr threshold : ℝ) (pts : List Vec3) : List Vec3 :=
  (gdAux lr threshold maxIter pts (calculateEnergy pts) none).1

/-- The sequence of total-energy evaluations made inside one invocation of
`gradientDescent`: the initial evaluation followed by the evaluation at
the end of each executed iteration. -/
def gdTrace (lr threshold : ℝ) (pts : List Vec3) : List ℝ :=
  (gdAux lr threshold maxIter pts (calculateEnergy pts) none).2

theorem gdAux_length_le (lr threshold : ℝ) :
    ∀ (fuel : ℕ) (pts : List Vec3) (cur : ℝ) (delta : Option ℝ),
      (gdAux lr threshold fuel pts cur delta).2.length ≤ fuel + 1 := by
  intro fuel
  induction fuel with
  | zero => intro pts cur delta; simp [gdAux]
  | succ f ih =>
    intro pts cur delta
    rw [gdAux]
    split
    · simpa using ih _ _ _
    · simp

theorem gdAux_of_not_gt (lr threshold : ℝ) (fuel : ℕ) (pts : List Vec3)
    (cur : ℝ) (delta : Option ℝ) (h : ¬ deltaGT threshold delta) :
    gdAux lr threshold fuel pts cur delta = (pts, [cur]) := by
  cases fuel with
  | zero => rfl
  | succ f => rw [gdAux, if_neg h]

theorem gdAux_zero (lr threshold : ℝ) (pts : List Vec3) (cur : ℝ)
    (delta : Option ℝ) : gdAux lr threshold 0 pts cur delta = (pts, [cur]) := rfl

theorem gdAux_snd_head (lr threshold : ℝ) (fuel : ℕ) (pts : List Vec3)
    (cur : ℝ) (delta : Option ℝ) :
    ∃ t, (gdAux lr threshold fuel pts cur delta).2 = cur :: t := by
  cases fuel with
  | zero => exact ⟨[], rfl⟩
  | succ f =>
    rw [gdAux]
    split
    · exact ⟨_, rfl⟩
    · exact ⟨[], rfl⟩

theorem gdAux_gt_of_length (lr threshold : ℝ) (fuel : ℕ) (pts : List Vec3)
    (cur : ℝ) (delta : Option ℝ)
    (h : 1 < (gdAux lr threshold fuel pts cur delta).2.length) :
    deltaGT threshold delta := by
  by_contra hn
  rw [gdAux_of_not_gt lr threshold fuel pts cur delta hn] at h
  simp at h

/-- Inside the convergence loop, every iteration beyond the next one is
entered only because the previous two energy evaluations differed by more
than the threshold: consecutive trace entries with at least one further
entry after them are more than `threshold` apart. -/
theorem gdAux_gap (lr threshold : ℝ) :
    ∀ (fuel : ℕ) (pts : List Vec3) (cur : ℝ) (delta : Option ℝ) (i : ℕ),
      i + 2 < (gdAux lr threshold fuel pts cur delta).2.length →
      threshold <
        |(gdAux lr threshold fuel pts cur delta).2.getD i 0 -
          (gdAux lr threshold fuel pts cur delta).2.getD (i + 1) 0| := by
  intro fuel
  induction fuel with
  | zero =>
    intro pts cur delta i h
    simp [gdAux] at h
  | succ f ih =>
    intro pts cur delta i h
    rw [gdAux] at h ⊢
    by_cases hg : deltaGT threshold delta
    · rw [if_pos hg] at h ⊢
      simp only [List.length_cons] at h
      cases i with
      | zero =>
        obtain ⟨t, ht⟩ := gdAux_snd_head lr threshold f (gdStep lr pts)
          (calculateEnergy (gdStep lr pts))
          (some |cur - calculateEnergy (gdStep lr pts)|)
        have hlen : 1 < (gdAux lr threshold f (gdStep lr pts)
            (calculateEnergy (gdStep lr pts))
            (some |cur - calculateEnergy (gdStep lr pts)|)).2.length := by omega
        have := gdAux_gt_of_length lr threshold f _ _ _ hlen
        simp only [deltaGT] at this
        simp only [ht, List.getD_cons_zero, List.getD_cons_succ]
        rw [ht] at *
        simpa using this
      | succ i' =>
        have := ih (gdStep lr pts) (calculateEnergy (gdStep lr pts))
          (some |cur - calculateEnergy (gdStep lr pts)|) i' (by omega)
        simpa using this
    · rw [if_neg hg] at h
      simp at h

/-- Any point produced by one gradient-descent position update from a
unit point is again a unit point: the projected force is tangent, so the
advanced position is nonzero and `normalize` puts it back on the sphere. -/
theorem isUnit_gdUpdatePoint (lr : ℝ) {p : Vec3} (f : Vec3) (h : p.IsUnit) :
    (gdUpdatePoint lr p f).IsUnit := by
  unfold gdUpdatePoint
  apply Vec3.isUnit_normalize
  set d := f.dot p with hd
  set ft := f.sub (Vec3.smul d p) with hft
  have htangent : p.dot ft = 0 := by
    rw [hft, Vec3.dot_comm, Vec3.dot_sub_left, Vec3.dot_smul_left,
      ← Vec3.lengthSq_eq_dot, h, hd]
    ring
  have hexp : (p.add (Vec3.smul lr ft)).lengthSq =
      1 + lr ^ 2 * ft.lengthSq := by
    rw [Vec3.lengthSq_add, h, Vec3.dot_smul_right, htangent,
      Vec3.lengthSq_smul]
    ring
  rw [hexp]
  have := ft.lengthSq_nonneg
  nlinarith

theorem zipWith_gdUpdate_isUnit (lr : ℝ) :
    ∀ (pts fs : List Vec3), (∀ p ∈ pts, p.IsUnit) →
      ∀ q ∈ List.zipWith (gdUpdatePoint lr) pts fs, q.IsUnit := by
  intro pts
  induction pts with
  | nil => intro fs _ q hq; simp at hq
  | cons p t ih =>
    intro fs hall q hq
    cases fs with
    | nil => simp at hq
    | cons f ft =>
      simp only [List.zipWith_cons_cons, List.mem_cons] at hq
      rcases hq with rfl | hq
      · exact isUnit_gdUpdatePoint lr f (hall p (by simp))
      · exact ih ft (fun r hr => hall r (by simp [hr])) q hq

/-- Every point of a configuration is a unit vector again after one
iteration of the gradient-descent loop. -/
theorem gdStep_isUnit (lr : ℝ) {pts : List Vec3} (h : ∀ p ∈ pts, p.IsUnit) :
    ∀ q ∈ gdStep lr pts, q.IsUnit :=
  zipWith_gdUpdate_isUnit lr pts (computeForces pts) h

/-! ### `ThomsonSimulation.mutate` -/

/-- `ThomsonSimulation.mutate(points)`: with the `Math.random()` draw `r`
below `mutationRate`, displace the point at index `idx` by a random unit
vector scaled by `0.2` and re-normalize; otherwise leave the configuration
unchanged.  The random draws (`r`, the index, and the two draws behind the
perturbation direction) are explicit parameters. -/
def mutate (mutationRate r : ℝ) (idx : ℕ) (uv : ℝ × ℝ) (pts : List Vec3) : List Vec3 :=
  if r < mutationRate then
    let perturbation := Vec3.smul 0.2 (randomPointOnSphere uv.1 uv.2)
    pts.set idx (((pts.getD idx default).add perturbation).normalize)
  else pts

/-- A unit point displaced by a `0.2`-scaled unit vector is nonzero, so
its normalization is a unit point again. -/
theorem isUnit_perturbed {p u : Vec3} (hp : p.IsUnit) (hu : u.IsUnit) :
    ((p.add (Vec3.smul 0.2 u)).normalize).IsUnit := by
  apply Vec3.isUnit_normalize
  intro h0
  rw [Vec3.lengthSq_eq_zero_iff] at h0
  cases p with
  | mk px py pz =>
    cases u with
    | mk ux uy uz =>
      simp only [Vec3.smul_mk, Vec3.add_mk, Vec3.mk.injEq] at h0
      obtain ⟨hx, hy, hz⟩ := h0
      unfold Vec3.IsUnit Vec3.lengthSq at hp hu
      simp only at hp hu
      have e1 : px = -0.2 * ux := by linarith
      have e2 : py = -0.2 * uy := by linarith
      have e3 : pz = -0.2 * uz := by linarith
      rw [e1, e2, e3] at hp
      nlinarith [hp, hu]

theorem getD_mem_of_lt {l : List Vec3} {n : ℕ} (h : n < l.length) :
    l.getD n default ∈ l := by
  rw [List.getD_eq_getElem l default h]
  exact List.getElem_mem h

/-- `mutate` preserves the unit-norm invariant of every point. -/
theorem mutate_isUnit (mutationRate r : ℝ) (idx : ℕ) (uv : ℝ × ℝ)
    {pts : List Vec3} (h : ∀ p ∈ pts, p.IsUnit) :
    ∀ q ∈ mutate mutationRate r idx uv pts, q.IsUnit := by
  intro q hq
  unfold mutate at hq
  split at hq
  · by_cases hidx : idx < pts.length
    · rcases List.mem_or_eq_of_mem_set hq with hmem | rfl
      · exact h q hmem
      · exact isUnit_perturbed (h _ (getD_mem_of_lt hidx))
          (isUnit_randomPointOnSphere uv.1 uv.2)
    · rw [List.set_eq_of_length_le (by omega)] at hq
      exact h q hq
  · exact h q hq

/-! ### `ThomsonSimulation.crossover` -/

/-- The first phase of `crossover`: the child inherits (clones of) every
point of parent A whose dot product with the splitting-plane normal is
`≥ 0`, followed by every point of parent B whose dot product is `< 0`. -/
def crossoverInit (normal : Vec3) (parentA parentB : List Vec3) : List Vec3 :=
  parentA.filter (fun p => decide (p.dot normal ≥ 0)) ++
    parentB.filter (fun p => decide (p.dot normal < 0))

/-- The `while (child.length < this.n)` padding loop of `crossover`:
append freshly sampled uniform sphere points until the child has `n`
points.  `rnd` is the stream of `Math.random()` draw pairs and `k` the
next stream position; the fuel bounds the loop (at most `n` pushes ever
happen). -/
def padGo (n : ℕ) (rnd : ℕ → ℝ × ℝ) : ℕ → ℕ → List Vec3 → List Vec3
  | 0, _, child => child
  | fuel + 1, k, child =>
    if child.length < n then
      padGo n rnd fuel (k + 1) (child ++ [randomPointOnSphere (rnd k).1 (rnd k).2])
    else child

/-- The body of the scan for the globally closest pair inside the
trimming loop of `crossover`: `minDist` starts as `Infinity` (modelled
`none`) and `removeIdx` as `-1` (modelled `none`); a strictly smaller
pair distance replaces both, recording the pair's lower index. -/
def frStep (child : List Vec3) (acc : Option ℝ × Option ℕ) (ij : ℕ × ℕ) :
    Option ℝ × Option ℕ :=
  let d := (child.getD ij.1 default).distanceTo (child.getD ij.2 default)
  match acc.1 with
  | none => (some d, some ij.1)
  | some m => if d < m then (some d, some ij.1) else acc

/-- The full scan over all index pairs for the closest pair, returning
the index to remove (`none` iff there is no pair at all). -/
def findRemoveIdx (child : List Vec3) : Option ℕ :=
  ((pairList child.length).foldl (frStep child) (none, none)).2

/-- The `while (child.length > this.n)` trimming loop of `crossover`:
repeatedly remove the recorded index of the closest pair (`splice`), or
the last point (`pop`) when no pair exists. -/
def trimGo (n : ℕ) : ℕ → List Vec3 → List Vec3
  | 0, child => child
  | fuel + 1, child =>
    if n < child.length then
      match findRemoveIdx child with
      | some i => trimGo n fuel (child.eraseIdx i)
      | none => trimGo n fuel child.dropLast
    else child

/-- `ThomsonSimulation.crossover(parentA, parentB)`, with the splitting
normal and the random stream for padding as explicit parameters and `n`
the configuration size (`this.n`). -/
def crossover (n : ℕ) (normal : Vec3) (rnd : ℕ → ℝ × ℝ)
    (parentA parentB : List Vec3) : List Vec3 :=
  let child := crossoverInit normal parentA parentB
  let padded := padGo n rnd n 0 child
  trimGo n padded.length padded

theorem padGo_length (n : ℕ) (rnd : ℕ → ℝ × ℝ) :
    ∀ (fuel k : ℕ) (child : List Vec3),
      (padGo n rnd fuel k child).length =
        if child.length < n then min n (child.length + fuel) else child.length := by
  intro fuel
  induction fuel with
  | zero =>
    intro k child
    simp only [padGo]
    split <;> omega
  | succ f ih =>
    intro k child
    rw [padGo]
    by_cases hlt : child.length < n
    · rw [if_pos hlt, if_pos hlt, ih]
      simp only [List.length_append, List.length_cons, List.length_nil]
      split <;> omega
    · rw [if_neg hlt, if_neg hlt]

theorem frStep_foldl_some (child : List Vec3) :
    ∀ (ps : List (ℕ × ℕ)) (m : ℝ) (i : ℕ),
      ∃ m' i', ps.foldl (frStep child) (some m, some i) = (some m', some i') ∧
        m' ≤ m ∧
        (∀ q ∈ ps,
          m' ≤ (child.getD q.1 default).distanceTo (child.getD q.2 default)) ∧
        ((m' = m ∧ i' = i) ∨ ∃ q ∈ ps,
          m' = (child.getD q.1 default).distanceTo (child.getD q.2 default) ∧
            i' = q.1) := by
  intro ps
  induction ps with
  | nil =>
    intro m i
    exact ⟨m, i, rfl, le_refl m, by simp, Or.inl ⟨rfl, rfl⟩⟩
  | cons q ps ih =>
    intro m i
    rw [List.foldl_cons]
    show ∃ m' i', (ps.foldl (frStep child) (frStep child (some m, some i) q)) = _ ∧ _
    unfold frStep
    simp only
    set dq := (child.getD q.1 default).distanceTo (child.getD q.2 default) with hdq
    by_cases hlt : dq < m
    · rw [if_pos hlt]
      obtain ⟨m', i', heq, hle, hall, horig⟩ := ih dq q.1
      refine ⟨m', i', heq, le_trans hle hlt.le, ?_, ?_⟩
      · intro r hr
        rcases List.mem_cons.mp hr with rfl | hr
        · exact hle
        · exact hall r hr
      · rcases horig with ⟨h1, h2⟩ | ⟨r, hr, h1, h2⟩
        · exact Or.inr ⟨q, by simp, h1, h2⟩
        · exact Or.inr ⟨r, by simp [hr], h1, h2⟩
    · rw [if_neg hlt]
      obtain ⟨m', i', heq, hle, hall, horig⟩ := ih m i
      refine ⟨m', i', heq, hle, ?_, ?_⟩
      · intro r hr
        rcases List.mem_cons.mp hr with rfl | hr
        · exact le_trans hle (not_lt.mp hlt)
        · exact hall r hr
      · rcases horig with ⟨h1, h2⟩ | ⟨r, hr, h1, h2⟩
        · exact Or.inl ⟨h1, h2⟩
        · exact Or.inr ⟨r, by simp [hr], h1, h2⟩

theorem frStep_foldl_from_none (child : List Vec3) (ps : List (ℕ × ℕ))
    (hne : ps ≠ []) :
    ∃ m' i', ps.foldl (frStep child) (none, none) = (some m', some i') ∧
      (∀ q ∈ ps,
        m' ≤ (child.getD q.1 default).distanceTo (child.getD q.2 default)) ∧
      ∃ q ∈ ps, m' = (child.getD q.1 default).distanceTo (child.getD q.2 default) ∧
        i' = q.1 := by
  cases ps with
  | nil => exact absurd rfl hne
  | cons q ps =>
    rw [List.foldl_cons]
    show ∃ m' i', (ps.foldl (frStep child) (frStep child (none, none) q)) = _ ∧ _
    unfold frStep
    simp only
    obtain ⟨m', i', heq, hle, hall, horig⟩ := frStep_foldl_some child ps
      ((child.getD q.1 default).distanceTo (child.getD q.2 default)) q.1
    refine ⟨m', i', heq, ?_, ?_⟩
    · intro r hr
      rcases List.mem_cons.mp hr with rfl | hr
      · exact hle
      · exact hall r hr
    · rcases horig with ⟨h1, h2⟩ | ⟨r, hr, h1, h2⟩
      · exact ⟨q, by simp, h1, h2⟩
      · exact ⟨r, by simp [hr], h1, h2⟩

/-- When the child has at least two points, the trimming scan returns the
lower index of a pair realizing the globally smallest pairwise
distance. -/
theorem findRemoveIdx_spec (child : List Vec3) (h2 : 2 ≤ child.length) :
    ∃ i j, findRemoveIdx child = some i ∧ i < j ∧ j < child.length ∧
      ∀ a b, a < b → b < child.length →
        (child.getD i default).distanceTo (child.getD j default) ≤
          (child.getD a default).distanceTo (child.getD b default) := by
  have hne : pairList child.length ≠ [] := by
    intro hempty
    have : ((0 : ℕ), (1 : ℕ)) ∈ pairList child.length :=
      mem_pairList.mpr ⟨by omega, by omega⟩
    rw [hempty] at this
    simp at this
  obtain ⟨m', i', heq, hall, q, hq, hm, hi⟩ :=
    frStep_foldl_from_none child (pairList child.length) hne
  obtain ⟨hqlt, hqlen⟩ := mem_pairList.mp (by
    have : q = (q.1, q.2) := rfl
    rw [this] at hq
    exact hq)
  refine ⟨q.1, q.2, ?_, hqlt, hqlen, ?_⟩
  · unfold findRemoveIdx
    rw [heq, hi]
  · intro a b hab hb
    have hmem : (a, b) ∈ pairList child.length := mem_pairList.mpr ⟨hab, hb⟩
    have := hall (a, b) hmem
    rw [← hm]
    exact this

theorem findRemoveIdx_lt (child : List Vec3) {i : ℕ}
    (h : findRemoveIdx child = some i) : i < child.length := by
  by_cases h2 : 2 ≤ child.length
  · obtain ⟨i', j', heq, hij, hj, _⟩ := findRemoveIdx_spec child h2
    rw [heq] at h
    injection h with h
    omega
  · -- fewer than two points: there is no pair, so the scan returns none
    have : pairList child.length = [] := by
      cases hl : child.length with
      | zero => rfl
      | succ k =>
        cases k with
        | zero => rfl
        | succ k2 => omega
    unfold findRemoveIdx at h
    rw [this] at h
    simp at h

theorem trimGo_length (n : ℕ) :
    ∀ (fuel : ℕ) (child : List Vec3),
      (trimGo n fuel child).length =
        if n < child.length then max n (child.length - fuel) else child.length := by
  intro fuel
  induction fuel with
  | zero =>
    intro child
    simp only [trimGo]
    split <;> omega
  | succ f ih =>
    intro child
    rw [trimGo]
    by_cases hlt : n < child.length
    · rw [if_pos hlt, if_pos hlt]
      cases hfr : findRemoveIdx child with
      | some i =>
        rw [ih]
        have hi := findRemoveIdx_lt child hfr
        rw [List.length_eraseIdx]
        split
        · split <;> omega
        · omega
      | none =>
        rw [ih, List.length_dropLast]
        split <;> omega
    · rw [if_neg hlt, if_neg hlt]

/-- `crossover` always returns exactly `n` points, for any parents and
any random draws. -/
theorem crossover_length (n : ℕ) (normal : Vec3) (rnd : ℕ → ℝ × ℝ)
    (parentA parentB : List Vec3) :
    (crossover n normal rnd parentA parentB).length = n := by
  unfold crossover
  simp only
  have hpad := padGo_length n rnd n 0 (crossoverInit normal parentA parentB)
  have hge : n ≤ (padGo n rnd n 0 (crossoverInit normal parentA parentB)).length := by
    rw [hpad]
    by_cases h : (crossoverInit normal parentA parentB).length < n
    · rw [if_pos h]; omega
    · rw [if_neg h]; omega
  rw [trimGo_length]
  by_cases h2 : n < (padGo n rnd n 0 (crossoverInit normal parentA parentB)).length
  · rw [if_pos h2]; omega
  · rw [if_neg h2]; omega

theorem mem_padGo (n : ℕ) (rnd : ℕ → ℝ × ℝ) :
    ∀ (fuel k : ℕ) (child : List Vec3) (q : Vec3),
      q ∈ padGo n rnd fuel k child →
        q ∈ child ∨ ∃ u v, q = randomPointOnSphere u v := by
  intro fuel
  induction fuel with
  | zero =>
    intro k child q hq
    exact Or.inl hq
  | succ f ih =>
    intro k child q hq
    rw [padGo] at hq
    split at hq
    · rcases ih _ _ _ hq with hmem | hfresh
      · rcases List.mem_append.mp hmem with hmem | hnew
        · exact Or.inl hmem
        · simp only [List.mem_singleton] at hnew
          exact Or.inr ⟨(rnd k).1, (rnd k).2, hnew⟩
      · exact Or.inr hfresh
    · exact Or.inl hq

theorem mem_trimGo (n : ℕ) :
    ∀ (fuel : ℕ) (child : List Vec3) (q : Vec3),
      q ∈ trimGo n fuel child → q ∈ child := by
  intro fuel
  induction fuel with
  | zero => intro child q hq; exact hq
  | succ f ih =>
    intro child q hq
    rw [trimGo] at hq
    split at hq
    · cases hfr : findRemoveIdx child with
      | some i =>
        rw [hfr] at hq
        exact (List.eraseIdx_sublist child i).subset (ih _ _ hq)
      | none =>
        rw [hfr] at hq
        exact (List.dropLast_sublist child).subset (ih _ _ hq)
    · exact hq

/-- `crossover` preserves the unit-norm invariant: every child point is
either an inherited parent point or a fresh sphere sample. -/
theorem crossover_isUnit (n : ℕ) (normal : Vec3) (rnd : ℕ → ℝ × ℝ)
    {parentA parentB : List Vec3}
    (hA : ∀ p ∈ parentA, p.IsUnit) (hB : ∀ p ∈ parentB, p.IsUnit) :
    ∀ q ∈ crossover n normal rnd parentA parentB, q.IsUnit := by
  intro q hq
  unfold crossover at hq
  have hq2 := mem_trimGo _ _ _ _ hq
  rcases mem_padGo _ _ _ _ _ _ hq2 with hmem | ⟨u, v, rfl⟩
  · unfold crossoverInit at hmem
    rcases List.mem_append.mp hmem with hmem | hmem
    · exact hA q (List.mem_of_mem_filter hmem)
    · exact hB q (List.mem_of_mem_filter hmem)
  · exact isUnit_randomPointOnSphere u v

/-! ### The population: individuals, sorting, best tracking, `step` -/

/-- A population member: `{ points, energy }`. -/
structure Individual where
  points : List Vec3
  energy : ℝ

instance : Inhabited Individual := ⟨⟨[], 0⟩⟩

/-- Insertion into a list sorted ascending by the measure `f`, placing the
new element before the first strictly larger one (so equal measures keep
their relative order: stability). -/
def insertSortedBy {α : Type} (f : α → ℝ) (a : α) : List α → List α
  | [] => [a]
  | b :: l => if f a ≤ f b then a :: b :: l else b :: insertSortedBy f a l

/-- A stable ascending insertion sort by the measure `f`: the model of
ECMAScript `Array.prototype.sort` (specified stable) under a comparator
`(a, b) => f(a) - f(b)`. -/
def stableSortBy {α : Type} (f : α → ℝ) (l : List α) : List α :=
  l.foldr (insertSortedBy f) []

theorem insertSortedBy_perm {α : Type} (f : α → ℝ) (a : α) (l : List α) :
    List.Perm (insertSortedBy f a l) (a :: l) := by
  induction l with
  | nil => exact List.Perm.refl _
  | cons b t ih =>
    rw [insertSortedBy]
    split
    · exact List.Perm.refl _
    · exact (ih.cons b).trans (List.Perm.swap a b t)

theorem stableSortBy_perm {α : Type} (f : α → ℝ) (l : List α) :
    List.Perm (stableSortBy f l) l := by
  induction l with
  | nil => exact List.Perm.refl _
  | cons a t ih =>
    have h1 : stableSortBy f (a :: t) = insertSortedBy f a (stableSortBy f t) := rfl
    rw [h1]
    exact (insertSortedBy_perm f a (stableSortBy f t)).trans (ih.cons a)

theorem insertSortedBy_pairwise {α : Type} (f : α → ℝ) (a : α) (l : List α)
    (h : l.Pairwise (fun x y => f x ≤ f y)) :
    (insertSortedBy f a l).Pairwise (fun x y => f x ≤ f y) := by
  induction l with
  | nil => simp [insertSortedBy]
  | cons b t ih =>
    rw [insertSortedBy]
    rw [List.pairwise_cons] at h
    split
    · rw [List.pairwise_cons]
      constructor
      · intro x hx
        rcases List.mem_cons.mp hx with rfl | hx
        · assumption
        · exact le_trans (by assumption) (h.1 x hx)
      · rw [List.pairwise_cons]
        exact h
    · rw [List.pairwise_cons]
      constructor
      · intro x hx
        have hx2 := (insertSortedBy_perm f a t).mem_iff.mp hx
        rcases List.mem_cons.mp hx2 with rfl | hx2
        · linarith [not_le.mp (by assumption)]
        · exact h.1 x hx2
      · exact ih h.2

theorem stableSortBy_pairwise {α : Type} (f : α → ℝ) (l : List α) :
    (stableSortBy f l).Pairwise (fun x y => f x ≤ f y) := by
  induction l with
  | nil => simp [stableSortBy]
  | cons a t ih => exact insertSortedBy_pairwise f a (stableSortBy f t) ih

/-- `this.population.sort((a, b) => a.energy - b.energy)`. -/
def sortByEnergy (l : List Individual) : List Individual :=
  stableSortBy (fun ind => ind.energy) l

theorem sortByEnergy_perm (l : List Individual) :
    List.Perm (sortByEnergy l) l := stableSortBy_perm _ l

theorem sortByEnergy_pairwise (l : List Individual) :
    (sortByEnergy l).Pairwise (fun x y => x.energy ≤ y.energy) :=
  stableSortBy_pairwise _ l

/-- The head of the energy-sorted population is a population minimum. -/
theorem sortByEnergy_head_le (l : List Individual) :
    ∀ x ∈ l, ((sortByEnergy l).headD default).energy ≤ x.energy := by
  intro x hx
  have hmem : x ∈ sortByEnergy l := (sortByEnergy_perm l).mem_iff.mpr hx
  have hpw := sortByEnergy_pairwise l
  cases hs : sortByEnergy l with
  | nil => rw [hs] at hmem; simp at hmem
  | cons h t =>
    rw [hs] at hmem hpw
    rw [List.headD_cons]
    rcases List.mem_cons.mp hmem with rfl | hmem
    · exact le_refl _
    · exact (List.pairwise_cons.mp hpw).1 x hmem

/-- The simulation state: the fields of `ThomsonSimulation` that the
optimizer reads and writes (`bestEnergy` starts as `Infinity`, modelled as
`⊤ : WithTop ℝ`; `bestConfig` starts as `null`). -/
structure SimState where
  n : ℕ
  populationSize : ℕ
  population : List Individual
  bestEnergy : WithTop ℝ
  bestConfig : Option (List Vec3)

/-- `ThomsonSimulation.updateBest`: sort the population by energy
ascending (in place) and, when the minimum improves strictly on the best
record, replace the best record with a copy of the minimum's points
(`map(p => p.clone())`; cloning is the value-level identity — the
heap-level freshness of the copies is modelled by `cloneConfigS`
below). -/
def updateBest (s : SimState) : SimState :=
  let sorted := sortByEnergy s.population
  let best := sorted.headD default
  if (best.energy : WithTop ℝ) < s.bestEnergy then
    { s with
      population := sorted
      bestEnergy := (best.energy : WithTop ℝ)
      bestConfig := some (best.points.map (fun p => p)) }
  else { s with population := sorted }

/-- `ThomsonSimulation.tournamentSelect` with the three `Math.random()`
index draws explicit: keep the lowest-energy of three population members
(`best` starts `null`, so the first is always taken). -/
def tournamentSelect (pop : List Individual) (idxs : ℕ × ℕ × ℕ) : Individual :=
  let b1 := pop.getD idxs.1 default
  let b2 := if (pop.getD idxs.2.1 default).energy < b1.energy
    then pop.getD idxs.2.1 default else b1
  if (pop.getD idxs.2.2 default).energy < b2.energy
    then pop.getD idxs.2.2 default else b2

/-- The random draws consumed by one `step()`: for each replacement
iteration, the two tournaments' index triples, the crossover normal's two
draws, the padding stream, and the mutation draws. -/
structure StepOracle where
  t1 : ℕ → ℕ × ℕ × ℕ
  t2 : ℕ → ℕ × ℕ × ℕ
  normalUV : ℕ → ℝ × ℝ
  padRnd : ℕ → ℕ → ℝ × ℝ
  mutR : ℕ → ℝ
  mutIdx : ℕ → ℕ
  mutUV : ℕ → ℝ × ℝ

/-- One iteration of the recombination loop of `step()` (iteration `i`):
select two parents by tournament from the current population, cross them
over, maybe mutate, locally optimize the child at `5×` the learning rate,
and overwrite slot `populationSize - 1 - i`. -/
def passBody (n popSize : ℕ) (mutationRate lr threshold : ℝ) (orc : StepOracle)
    (pop : List Individual) (i : ℕ) : List Individual :=
  let p1 := tournamentSelect pop (orc.t1 i)
  let p2 := tournamentSelect pop (orc.t2 i)
  let childPoints := crossover n
    (randomPointOnSphere (orc.normalUV i).1 (orc.normalUV i).2)
    (orc.padRnd i) p1.points p2.points
  let mutated := mutate mutationRate (orc.mutR i) (orc.mutIdx i) (orc.mutUV i)
    childPoints
  let refined := gradientDescent (lr * 5) threshold mutated
  pop.set (popSize - 1 - i) ⟨refined, calculateEnergy refined⟩

/-- The population after the first `k` iterations of the recombination
loop of one `step()`. -/
def passPopAt (n popSize : ℕ) (mutationRate lr threshold : ℝ) (orc : StepOracle)
    (pop : List Individual) (k : ℕ) : List Individual :=
  (List.range k).foldl (passBody n popSize mutationRate lr threshold orc) pop

/-- `Math.abs(initialBestEnergy - this.bestEnergy)` on the extended
reals (`Infinity` minus anything is `Infinity`). -/
def absDeltaTop : WithTop ℝ → WithTop ℝ → WithTop ℝ
  | some a, some b => some |a - b|
  | _, _ => ⊤

/-- `ThomsonSimulation.step()`: gradient descent on every individual,
best update, `⌊populationSize/2⌋` recombination replacements, best update
again, and the absolute best-energy delta as return value. -/
def step (mutationRate lr threshold : ℝ) (orc : StepOracle) (s : SimState) :
    SimState × WithTop ℝ :=
  let initialBest := s.bestEnergy
  let pop1 := s.population.map (fun ind =>
    let pts := gradientDescent lr threshold ind.points
    Individual.mk pts (calculateEnergy pts))
  let s1 := updateBest { s with population := pop1 }
  let pop2 := passPopAt s.n s.populationSize mutationRate lr threshold orc
    s1.population (s.populationSize / 2)
  let s2 := updateBest { s1 with population := pop2 }
  (s2, absDeltaTop initialBest s2.bestEnergy)

/-- A sequence of `step()` calls (the external driver loop), keeping only
the evolving state. -/
def stepMany (mutationRate lr threshold : ℝ) (orcs : List StepOracle)
    (s : SimState) : SimState :=
  orcs.foldl (fun st o => (step mutationRate lr threshold o st).1) s

theorem updateBest_bestEnergy_le (s : SimState) :
    (updateBest s).bestEnergy ≤ s.bestEnergy := by
  unfold updateBest
  dsimp only
  split
  · exact le_of_lt (by assumption)
  · exact le_refl _

theorem updateBest_strict (s : SimState)
    (h : (updateBest s).bestEnergy ≠ s.bestEnergy) :
    (updateBest s).bestEnergy < s.bestEnergy ∧
      (updateBest s).bestEnergy =
        (((sortByEnergy s.population).headD default).energy : WithTop ℝ) ∧
      ∀ ind ∈ s.population,
        ((sortByEnergy s.population).headD default).energy ≤ ind.energy := by
  unfold updateBest at h ⊢
  dsimp only at h ⊢
  split at h
  · next hlt =>
    rw [if_pos hlt]
    exact ⟨hlt, rfl, sortByEnergy_head_le s.population⟩
  · next hlt =>
    simp at h

theorem updateBest_population_unchanged_bestEnergy (s : SimState)
    (pop : List Individual) :
    ({ s with population := pop } : SimState).bestEnergy = s.bestEnergy := rfl

theorem step_bestEnergy_le (mutationRate lr threshold : ℝ) (orc : StepOracle)
    (s : SimState) :
    (step mutationRate lr threshold orc s).1.bestEnergy ≤ s.bestEnergy := by
  unfold step
  simp only
  exact le_trans (updateBest_bestEnergy_le _) (updateBest_bestEnergy_le _)

theorem stepMany_bestEnergy_le (mutationRate lr threshold : ℝ) :
    ∀ (orcs : List StepOracle) (s : SimState),
      (stepMany mutationRate lr threshold orcs s).bestEnergy ≤ s.bestEnergy := by
  intro orcs
  induction orcs with
  | nil => intro s; exact le_refl _
  | cons o t ih =>
    intro s
    calc (stepMany mutationRate lr threshold (o :: t) s).bestEnergy
        = (stepMany mutationRate lr threshold t
            (step mutationRate lr threshold o s).1).bestEnergy := rfl
      _ ≤ (step mutationRate lr threshold o s).1.bestEnergy := ih _
      _ ≤ s.bestEnergy := step_bestEnergy_le mutationRate lr threshold o s

theorem getD_mem {α : Type} [Inhabited α] {l : List α} {n : ℕ}
    (h : n < l.length) : l.getD n default ∈ l := by
  rw [List.getD_eq_getElem l default h]
  exact List.getElem_mem h

/-- A tournament with in-range index draws selects a member of the
population it draws from. -/
theorem tournamentSelect_mem (pop : List Individual) (idxs : ℕ × ℕ × ℕ)
    (h1 : idxs.1 < pop.length) (h2 : idxs.2.1 < pop.length)
    (h3 : idxs.2.2 < pop.length) : tournamentSelect pop idxs ∈ pop := by
  unfold tournamentSelect
  dsimp only
  split <;> split <;>
    first
    | exact getD_mem h1
    | exact getD_mem h2
    | exact getD_mem h3

theorem passBody_length (n popSize : ℕ) (mutationRate lr threshold : ℝ)
    (orc : StepOracle) (pop : List Individual) (i : ℕ) :
    (passBody n popSize mutationRate lr threshold orc pop i).length = pop.length := by
  unfold passBody
  exact List.length_set pop _ _

theorem passPopAt_length (n popSize : ℕ) (mutationRate lr threshold : ℝ)
    (orc : StepOracle) (pop : List Individual) :
    ∀ k, (passPopAt n popSize mutationRate lr threshold orc pop k).length =
      pop.length := by
  intro k
  induction k with
  | zero => rfl
  | succ k ih =>
    unfold passPopAt at ih ⊢
    rw [List.range_succ, List.foldl_append, List.foldl_cons, List.foldl_nil,
      passBody_length]
    exact ih

/-! ### A heap model for object identity

JavaScript `THREE.Vector3` values are mutable heap objects; `p.clone()`
allocates a fresh object.  To state aliasing/frame properties (which the
pure value-level model cannot express) the relevant operations are
re-traced against an explicit store: addresses are naturals, allocation
writes at `next` and bumps it, and point lists become address lists. -/

/-- The heap: contents of every address, and the next fresh address. -/
structure Store where
  mem : ℕ → Vec3
  next : ℕ

/-- Allocation of a fresh `Vector3` holding `v` (used by `clone()` and
`new THREE.Vector3`). -/
def allocS (s : Store) (v : Vec3) : Store × ℕ :=
  (⟨fun a => if a = s.next then v else s.mem a, s.next + 1⟩, s.next)

/-- `p.clone()`: allocate a fresh object with the contents of `a`. -/
def cloneS (s : Store) (a : ℕ) : Store × ℕ := allocS s (s.mem a)

/-- One parent loop of `crossover` on the heap: for each parent point
satisfying the half-space test, push a clone of it onto the child. -/
def cloneFilteredS (keep : Vec3 → Bool) : List ℕ → Store → List ℕ → Store × List ℕ
  | [], s, acc => (s, acc)
  | a :: rest, s, acc =>
    if keep (s.mem a) then
      let r := cloneS s a
      cloneFilteredS keep rest r.1 (acc ++ [r.2])
    else cloneFilteredS keep rest s acc

/-- The padding loop of `crossover` on the heap: allocate fresh random
sphere points until the child has `n` addresses. -/
def padGoS (n : ℕ) (rnd : ℕ → ℝ × ℝ) : ℕ → ℕ → Store → List ℕ → Store × List ℕ
  | 0, _, s, child => (s, child)
  | fuel + 1, k, s, child =>
    if child.length < n then
      let r := allocS s (randomPointOnSphere (rnd k).1 (rnd k).2)
      padGoS n rnd fuel (k + 1) r.1 (child ++ [r.2])
    else (s, child)

/-- The closest-pair scan of the trimming loop, reading point values
through the store. -/
def findRemoveIdxS (s : Store) (child : List ℕ) : Option ℕ :=
  ((pairList child.length).foldl
    (fun acc ij =>
      let d := (s.mem (child.getD ij.1 0)).distanceTo (s.mem (child.getD ij.2 0))
      match acc.1 with
      | none => (some d, some ij.1)
      | some m => if d < m then (some d, some ij.1) else acc)
    ((none : Option ℝ), (none : Option ℕ))).2

/-- The trimming loop of `crossover` on the heap: drops addresses from
the child list, never writing to the store. -/
def trimGoS (s : Store) (n : ℕ) : ℕ → List ℕ → List ℕ
  | 0, child => child
  | fuel + 1, child =>
    if n < child.length then
      match findRemoveIdxS s child with
      | some i => trimGoS s n fuel (child.eraseIdx i)
      | none => trimGoS s n fuel child.dropLast
    else child

/-- `ThomsonSimulation.crossover` on the heap: clone the kept halves of
both parents, pad with fresh allocations, trim by address removal. -/
def crossoverS (n : ℕ) (normal : Vec3) (rnd : ℕ → ℝ × ℝ) (s : Store)
    (parentA parentB : List ℕ) : Store × List ℕ :=
  let r1 := cloneFilteredS (fun p => decide (p.dot normal ≥ 0)) parentA s []
  let r2 := cloneFilteredS (fun p => decide (p.dot normal < 0)) parentB r1.1 r1.2
  let r3 := padGoS n rnd n 0 r2.1 r2.2
  (r3.1, trimGoS r3.1 n r3.2.length r3.2)

theorem cloneFilteredS_spec (keep : Vec3 → Bool) :
    ∀ (parent : List ℕ) (s : Store) (acc : List ℕ),
      s.next ≤ (cloneFilteredS keep parent s acc).1.next ∧
      (∀ a, a < s.next →
        (cloneFilteredS keep parent s acc).1.mem a = s.mem a) ∧
      (∀ c ∈ (cloneFilteredS keep parent s acc).2,
        c ∈ acc ∨ (s.next ≤ c ∧ c < (cloneFilteredS keep parent s acc).1.next)) := by
  intro parent
  induction parent with
  | nil =>
    intro s acc
    refine ⟨le_refl _, fun a _ => rfl, fun c hc => Or.inl hc⟩
  | cons a rest ih =>
    intro s acc
    rw [cloneFilteredS]
    split
    · dsimp only
      obtain ⟨hnext, hmem, hacc⟩ := ih
        (cloneS s a).1 (acc ++ [(cloneS s a).2])
      have hn1 : (cloneS s a).1.next = s.next + 1 := rfl
      have hv : (cloneS s a).2 = s.next := rfl
      refine ⟨by omega, ?_, ?_⟩
      · intro b hb
        rw [hmem b (by omega)]
        show (if b = s.next then _ else s.mem b) = s.mem b
        rw [if_neg (by omega)]
      · intro c hc
        rcases hacc c hc with hmemacc | ⟨hge, hlt⟩
        · rcases List.mem_append.mp hmemacc with h | h
          · exact Or.inl h
          · simp only [List.mem_singleton] at h
            subst h
            exact Or.inr ⟨by omega, by omega⟩
        · exact Or.inr ⟨by omega, hlt⟩
    · exact ih s acc

theorem padGoS_spec (n : ℕ) (rnd : ℕ → ℝ × ℝ) :
    ∀ (fuel k : ℕ) (s : Store) (child : List ℕ),
      s.next ≤ (padGoS n rnd fuel k s child).1.next ∧
      (∀ a, a < s.next →
        (padGoS n rnd fuel k s child).1.mem a = s.mem a) ∧
      (∀ c ∈ (padGoS n rnd fuel k s child).2,
        c ∈ child ∨ (s.next ≤ c ∧ c < (padGoS n rnd fuel k s child).1.next)) := by
  intro fuel
  induction fuel with
  | zero =>
    intro k s child
    exact ⟨le_refl _, fun a _ => rfl, fun c hc => Or.inl hc⟩
  | succ f ih =>
    intro k s child
    rw [padGoS]
    split
    · dsimp only
      obtain ⟨hnext, hmem, hacc⟩ := ih (k + 1)
        (allocS s (randomPointOnSphere (rnd k).1 (rnd k).2)).1
        (child ++ [(allocS s (randomPointOnSphere (rnd k).1 (rnd k).2)).2])
      have hn1 :
          (allocS s (randomPointOnSphere (rnd k).1 (rnd k).2)).1.next =
            s.next + 1 := rfl
      refine ⟨by omega, ?_, ?_⟩
      · intro b hb
        rw [hmem b (by omega)]
        show (if b = s.next then _ else s.mem b) = s.mem b
        rw [if_neg (by omega)]
      · intro c hc
        rcases hacc c hc with hmemacc | ⟨hge, hlt⟩
        · rcases List.mem_append.mp hmemacc with h | h
          · exact Or.inl h
          · simp only [List.mem_singleton] at h
            subst h
            have hv : (allocS s (randomPointOnSphere (rnd k).1 (rnd k).2)).2 = s.next := rfl
            exact Or.inr ⟨by omega, by omega⟩
        · exact Or.inr ⟨by omega, hlt⟩
    · exact ⟨le_refl _, fun a _ => rfl, fun c hc => Or.inl hc⟩

theorem mem_trimGoS (s : Store) (n : ℕ) :
    ∀ (fuel : ℕ) (child : List ℕ) (c : ℕ),
      c ∈ trimGoS s n fuel child → c ∈ child := by
  intro fuel
  induction fuel with
  | zero => intro child c hc; exact hc
  | succ f ih =>
    intro child c hc
    rw [trimGoS] at hc
    split at hc
    · cases hfr : findRemoveIdxS s child with
      | some i =>
        rw [hfr] at hc
        exact (List.eraseIdx_sublist child i).subset (ih _ _ hc)
      | none =>
        rw [hfr] at hc
        exact (List.dropLast_sublist child).subset (ih _ _ hc)
    · exact hc

/-- The heap-level frame/freshness property of `crossover`: the call
never writes to any pre-existing address (in particular both parents'
point objects are untouched), and every child address is freshly
allocated, so no child entry aliases a parent entry. -/
theorem crossoverS_spec (n : ℕ) (normal : Vec3) (rnd : ℕ → ℝ × ℝ)
    (s : Store) (parentA parentB : List ℕ) :
    (∀ a, a < s.next →
      (crossoverS n normal rnd s parentA parentB).1.mem a = s.mem a) ∧
    (∀ c ∈ (crossoverS n normal rnd s parentA parentB).2, s.next ≤ c) := by
  unfold crossoverS
  dsimp only
  obtain ⟨h1next, h1mem, h1acc⟩ :=
    cloneFilteredS_spec (fun p => decide (p.dot normal ≥ 0)) parentA s []
  obtain ⟨h2next, h2mem, h2acc⟩ :=
    cloneFilteredS_spec (fun p => decide (p.dot normal < 0)) parentB
      (cloneFilteredS (fun p => decide (p.dot normal ≥ 0)) parentA s []).1
      (cloneFilteredS (fun p => decide (p.dot normal ≥ 0)) parentA s []).2
  obtain ⟨h3next, h3mem, h3acc⟩ := padGoS_spec n rnd n 0
    (cloneFilteredS (fun p => decide (p.dot normal < 0)) parentB _ _).1
    (cloneFilteredS (fun p => decide (p.dot normal < 0)) parentB _ _).2
  constructor
  · intro a ha
    rw [h3mem a (by omega), h2mem a (by omega), h1mem a ha]
  · intro c hc
    have hc2 := mem_trimGoS _ _ _ _ _ hc
    rcases h3acc c hc2 with hmem | ⟨hge, _⟩
    · rcases h2acc c hmem with hmem2 | ⟨hge2, _⟩
      · rcases h1acc c hmem2 with hmem3 | ⟨hge3, _⟩
        · simp at hmem3
        · exact hge3
      · omega
    · omega

/-- `bestConfig = population[0].points.map(p => p.clone())` on the heap:
clone every address of a configuration in order. -/
def cloneConfigS : List ℕ → Store → Store × List ℕ
  | [], s => (s, [])
  | a :: rest, s =>
    let r := cloneS s a
    let r2 := cloneConfigS rest r.1
    (r2.1, r.2 :: r2.2)

theorem cloneConfigS_spec :
    ∀ (addrs : List ℕ) (s : Store),
      s.next ≤ (cloneConfigS addrs s).1.next ∧
      (∀ a, a < s.next → (cloneConfigS addrs s).1.mem a = s.mem a) ∧
      (∀ c ∈ (cloneConfigS addrs s).2, s.next ≤ c) := by
  intro addrs
  induction addrs with
  | nil =>
    intro s
    exact ⟨le_refl _, fun a _ => rfl, by simp [cloneConfigS]⟩
  | cons a rest ih =>
    intro s
    rw [cloneConfigS]
    dsimp only
    obtain ⟨hnext, hmem, hfresh⟩ := ih (cloneS s a).1
    have hn1 : (cloneS s a).1.next = s.next + 1 := rfl
    refine ⟨by omega, ?_, ?_⟩
    · intro b hb
      rw [hmem b (by omega)]
      show (if b = s.next then _ else s.mem b) = s.mem b
      rw [if_neg (by omega)]
    · intro c hc
      rcases List.mem_cons.mp hc with rfl | hc
      · exact le_refl _
      · have := hfresh c hc
        omega

theorem cloneConfigS_values_gen :
    ∀ (addrs : List ℕ) (s : Store) (f : ℕ → Vec3),
      (∀ a ∈ addrs, a < s.next ∧ s.mem a = f a) →
      List.Forall₂ (fun a c => (cloneConfigS addrs s).1.mem c = f a)
        addrs (cloneConfigS addrs s).2 := by
  intro addrs
  induction addrs with
  | nil => intro s f _; exact List.Forall₂.nil
  | cons a rest ih =>
    intro s f hvalid
    rw [cloneConfigS]
    dsimp only
    constructor
    · -- head clone: later clones write only at fresh addresses above it
      obtain ⟨_, hmem, _⟩ := cloneConfigS_spec rest (cloneS s a).1
      have hn1 : (cloneS s a).1.next = s.next + 1 := rfl
      have hv : (cloneS s a).2 = s.next := rfl
      rw [hmem _ (by omega)]
      show (if s.next = s.next then s.mem a else _) = f a
      rw [if_pos rfl]
      exact (hvalid a (by simp)).2
    · -- the rest: the head clone did not disturb any valid source address
      apply ih (cloneS s a).1 f
      intro b hb
      obtain ⟨hblt, hbval⟩ := hvalid b (List.mem_cons_of_mem a hb)
      have hn1 : (cloneS s a).1.next = s.next + 1 := rfl
      constructor
      · omega
      · show (if b = s.next then _ else s.mem b) = f b
        rw [if_neg (by omega)]
        exact hbval

/-- The values behind a cloned configuration: each clone holds exactly
the contents its source address had before the call (a genuine deep
copy). -/
theorem cloneConfigS_values (addrs : List ℕ) (s : Store)
    (h : ∀ a ∈ addrs, a < s.next) :
    List.Forall₂ (fun a c => (cloneConfigS addrs s).1.mem c = s.mem a)
      addrs (cloneConfigS addrs s).2 :=
  cloneConfigS_values_gen addrs s s.mem (fun a ha => ⟨h a ha, rfl⟩)

/-! ### The hull edge analyzer: `calculateEdgeGroups`

The convex hull itself (`THREE.ConvexGeometry`) is an external geometric
primitive (spec §9); it is modelled as a parameter producing the
triangle soup that the source reads back from
`geometry.attributes.position.array` in groups of nine floats. -/

/-- One hull triangle (three vertex positions). -/
def Tri : Type := Vec3 × Vec3 × Vec3

/-- A hull edge as stored by `processEdge`: the two endpoints in the
orientation first encountered, and their distance. -/
structure Edge where
  start : Vec3
  endp : Vec3
  len : ℝ

/-- A cluster of edges: `len` is the representative length (set when the
group is created and never updated), `edges` its members. -/
structure EdgeGroup where
  len : ℝ
  edges : List Edge

/-- `getVertexKey`: each coordinate rounded to 4 decimal places
(`toFixed(4)` keyed per coordinate; the numeric rounding — nearest, ties
toward the larger value — is exactly Lean's `round` applied to `10⁴·x`;
the source compares the resulting decimal strings, which induces the same
equality of keys). -/
def getVertexKey (v : Vec3) : ℤ × ℤ × ℤ :=
  (round (v.x * 10000), round (v.y * 10000), round (v.z * 10000))

/-- Lexicographic order on vertex keys, used only to orient the unordered
pair canonically (`ka < kb ? ka|kb : kb|ka` — the source uses string
comparison; any total order induces the same key-pair identity, namely
equality of the unordered pair of vertex keys). -/
def keyLt (k1 k2 : ℤ × ℤ × ℤ) : Prop :=
  k1.1 < k2.1 ∨ (k1.1 = k2.1 ∧ (k1.2.1 < k2.2.1 ∨ (k1.2.1 = k2.2.1 ∧ k1.2.2 < k2.2.2)))

instance (k1 k2 : ℤ × ℤ × ℤ) : Decidable (keyLt k1 k2) := by
  unfold keyLt
  infer_instance

/-- The canonical unordered key of an edge. -/
def edgeKey (a b : Vec3) : (ℤ × ℤ × ℤ) × (ℤ × ℤ × ℤ) :=
  if keyLt (getVertexKey a) (getVertexKey b)
  then (getVertexKey a, getVertexKey b)
  else (getVertexKey b, getVertexKey a)

/-- `processEdge(a, b)`: skip degenerate edges (equal rounded keys), skip
already-seen keys, otherwise record the edge under its key (the JS `Map`
keeps insertion order, modelled by appending). -/
def processEdge (acc : List (((ℤ × ℤ × ℤ) × (ℤ × ℤ × ℤ)) × Edge)) (a b : Vec3) :
    List (((ℤ × ℤ × ℤ) × (ℤ × ℤ × ℤ)) × Edge) :=
  if getVertexKey a = getVertexKey b then acc
  else if edgeKey a b ∈ acc.map Prod.fst then acc
  else acc ++ [(edgeKey a b, ⟨a, b, a.distanceTo b⟩)]

/-- The triangle loop of `calculateEdgeGroups`: the three `processEdge`
calls per triangle, in source order. -/
def collectEdges (tris : List Tri) :
    List (((ℤ × ℤ × ℤ) × (ℤ × ℤ × ℤ)) × Edge) :=
  tris.foldl
    (fun acc t => processEdge (processEdge (processEdge acc t.1 t.2.1) t.2.1 t.2.2) t.2.2 t.1)
    []

/-- The greedy grouping scan of one edge: join the first group whose
representative length is within `1e-2`, else open a new group at the
end. -/
def pushEdge : List EdgeGroup → Edge → List EdgeGroup
  | [], e => [⟨e.len, [e]⟩]
  | g :: gs, e =>
    if |g.len - e.len| < 1e-2 then ⟨g.len, g.edges ++ [e]⟩ :: gs
    else g :: pushEdge gs e

/-- The `edges.forEach` grouping loop. -/
def groupEdges (edges : List Edge) : List EdgeGroup := edges.foldl pushEdge []

/-- `calculateEdgeGroups(points)`: empty below four points, else extract
the unique hull edges, group them greedily by length, and sort the groups
by representative length (`groups.sort((a, b) => a.len - b.len)`). -/
def calculateEdgeGroups (hull : List Vec3 → List Tri) (points : List Vec3) :
    List EdgeGroup :=
  if points.length < 4 then []
  else stableSortBy (fun g => g.len)
    (groupEdges ((collectEdges (hull points)).map Prod.snd))

/-- The raw directed edge stream of the triangle soup, in discovery
order. -/
def rawEdges (tris : List Tri) : List (Vec3 × Vec3) :=
  tris.flatMap (fun t => [(t.1, t.2.1), (t.2.1, t.2.2), (t.2.2, t.1)])

/-- Specification-side deduplication (spec §4.5): walk the raw edges in
discovery order keeping the first occurrence of every canonical rounded
key, dropping degenerate edges. -/
def specDedup (seen : List ((ℤ × ℤ × ℤ) × (ℤ × ℤ × ℤ))) :
    List (Vec3 × Vec3) → List Edge
  | [] => []
  | (a, b) :: rest =>
    if getVertexKey a = getVertexKey b then specDedup seen rest
    else if edgeKey a b ∈ seen then specDedup seen rest
    else ⟨a, b, a.distanceTo b⟩ :: specDedup (edgeKey a b :: seen) rest

/-- The raw-edge fold underlying `collectEdges`. -/
def processRaw (acc : List (((ℤ × ℤ × ℤ) × (ℤ × ℤ × ℤ)) × Edge)) :
    List (Vec3 × Vec3) → List (((ℤ × ℤ × ℤ) × (ℤ × ℤ × ℤ)) × Edge)
  | [] => acc
  | (a, b) :: rest => processRaw (processEdge acc a b) rest

theorem collectEdges_eq_processRaw (tris : List Tri) :
    collectEdges tris = processRaw [] (rawEdges tris) := by
  suffices h : ∀ (ts : List Tri) acc,
      ts.foldl (fun acc t =>
        processEdge (processEdge (processEdge acc t.1 t.2.1) t.2.1 t.2.2) t.2.2 t.1) acc =
      processRaw acc (rawEdges ts) by
    exact h tris []
  intro ts
  induction ts with
  | nil => intro acc; rfl
  | cons t rest ih =>
    intro acc
    rw [List.foldl_cons]
    have hraw : rawEdges (t :: rest) =
        (t.1, t.2.1) :: (t.2.1, t.2.2) :: (t.2.2, t.1) :: rawEdges rest := rfl
    rw [hraw]
    show _ = processRaw _ _
    rw [processRaw, processRaw, processRaw]
    exact ih _

/-- `specDedup` only consults `seen` through key membership. -/
theorem specDedup_congr (seen1 seen2 : List ((ℤ × ℤ × ℤ) × (ℤ × ℤ × ℤ)))
    (h : ∀ k, k ∈ seen1 ↔ k ∈ seen2) :
    ∀ raw, specDedup seen1 raw = specDedup seen2 raw := by
  intro raw
  induction raw generalizing seen1 seen2 with
  | nil => rfl
  | cons e rest ih =>
    obtain ⟨a, b⟩ := e
    rw [specDedup, specDedup]
    by_cases hdeg : getVertexKey a = getVertexKey b
    · rw [if_pos hdeg, if_pos hdeg]
      exact ih seen1 seen2 h
    · rw [if_neg hdeg, if_neg hdeg]
      by_cases hseen : edgeKey a b ∈ seen1
      · rw [if_pos hseen, if_pos ((h _).mp hseen)]
        exact ih seen1 seen2 h
      · rw [if_neg hseen, if_neg (fun hc => hseen ((h _).mpr hc))]
        congr 1
        apply ih
        intro k
        simp only [List.mem_cons]
        rw [h k]

/-- The accumulator fold of the source dedups exactly as the
specification walk does: the recorded edges are the first occurrences of
each canonical key, in discovery order. -/
theorem processRaw_spec :
    ∀ (raw : List (Vec3 × Vec3)) (acc : List (((ℤ × ℤ × ℤ) × (ℤ × ℤ × ℤ)) × Edge)),
      (processRaw acc raw).map Prod.snd =
        acc.map Prod.snd ++ specDedup (acc.map Prod.fst) raw := by
  intro raw
  induction raw with
  | nil => intro acc; simp [processRaw, specDedup]
  | cons e rest ih =>
    intro acc
    obtain ⟨a, b⟩ := e
    rw [processRaw, specDedup, processEdge]
    by_cases hdeg : getVertexKey a = getVertexKey b
    · rw [if_pos hdeg, if_pos hdeg, ih]
    · rw [if_neg hdeg, if_neg hdeg]
      by_cases hseen : edgeKey a b ∈ acc.map Prod.fst
      · rw [if_pos hseen, if_pos hseen, ih]
      · rw [if_neg hseen, if_neg hseen, ih]
        rw [List.map_append, List.map_append]
        simp only [List.map_cons, List.map_nil]
        rw [List.append_assoc, List.singleton_append]
        congr 2
        apply specDedup_congr
        intro k
        simp [List.mem_append, or_comm]

/-- The unique-edge list of the source equals the specification-side
first-occurrence walk over the raw edges. -/
theorem collectEdges_spec (tris : List Tri) :
    (collectEdges tris).map Prod.snd = specDedup [] (rawEdges tris) := by
  rw [collectEdges_eq_processRaw, processRaw_spec]
  rfl

/-- The structural invariant of the greedy grouping: every group's
representative length is the length of its first edge, and every member
is within the `1e-2` tolerance of the representative. -/
def GroupInv (gs : List EdgeGroup) : Prop :=
  ∀ g ∈ gs, (∃ e t, g.edges = e :: t ∧ g.len = e.len) ∧
    ∀ e ∈ g.edges, |g.len - e.len| < 1e-2

theorem pushEdge_inv (gs : List EdgeGroup) (e : Edge) (h : GroupInv gs) :
    GroupInv (pushEdge gs e) := by
  induction gs with
  | nil =>
    intro g hg
    simp only [pushEdge, List.mem_singleton] at hg
    subst hg
    refine ⟨⟨e, [], rfl, rfl⟩, ?_⟩
    intro e2 he2
    simp only [List.mem_singleton] at he2
    subst he2
    simp only [sub_self, abs_zero]
    norm_num
  | cons g0 gs0 ih =>
    intro g hg
    rw [pushEdge] at hg
    split at hg
    · rcases List.mem_cons.mp hg with rfl | hg
      · obtain ⟨⟨e0, t0, het, hlen⟩, htol⟩ := h g0 (by simp)
        refine ⟨⟨e0, t0 ++ [e], by simp [het], hlen⟩, ?_⟩
        intro e2 he2
        rcases List.mem_append.mp he2 with he2 | he2
        · exact htol e2 he2
        · simp only [List.mem_singleton] at he2
          subst he2
          assumption
      · exact h g (List.mem_cons_of_mem g0 hg)
    · rcases List.mem_cons.mp hg with rfl | hg
      · exact h g (by simp)
      · exact ih (fun g2 hg2 => h g2 (List.mem_cons_of_mem g0 hg2)) g hg

theorem groupEdges_inv (edges : List Edge) : GroupInv (groupEdges edges) := by
  suffices h : ∀ (es : List Edge) (gs : List EdgeGroup), GroupInv gs →
      GroupInv (es.foldl pushEdge gs) by
    exact h edges [] (by intro g hg; simp at hg)
  intro es
  induction es with
  | nil => intro gs h; exact h
  | cons e rest ih =>
    intro gs h
    rw [List.foldl_cons]
    exact ih _ (pushEdge_inv gs e h)

/-! ### Concrete evaluation lemmas

Helpers to evaluate the optimizer on explicit two-point mirror-symmetric
configurations `(a, ±b, 0)`, where every quantity the loop computes stays
in closed form. -/

theorem sqrtEq (x c : ℝ) (hc : 0 ≤ c) (h : c ^ 2 = x) : Real.sqrt x = c := by
  rw [← h, Real.sqrt_sq hc]

theorem normalize_mk_rat (x y c : ℝ) (hc : 0 < c) (h : x * x + y * y = c * c) :
    Vec3.normalize ⟨x, y, 0⟩ = ⟨x / c, y / c, 0⟩ := by
  have hlsq : (Vec3.mk x y 0).lengthSq = c ^ 2 := by
    simp only [Vec3.lengthSq_mk]
    rw [sq]
    linarith
  have hlen : (Vec3.mk x y 0).len = c := by
    unfold Vec3.len
    rw [hlsq]
    exact Real.sqrt_sq hc.le
  unfold Vec3.normalize
  rw [hlen, if_neg (by positivity)]
  simp only [Vec3.smul_mk]
  rw [Vec3.mk.injEq]
  refine ⟨by ring, by ring, by ring⟩

theorem distanceTo_mirror (a b : ℝ) (hb : 0 ≤ b) :
    (Vec3.mk a b 0).distanceTo ⟨a, -b, 0⟩ = 2 * b := by
  unfold Vec3.distanceTo Vec3.len
  simp only [Vec3.sub_mk, Vec3.lengthSq_mk]
  apply sqrtEq
  · linarith
  · ring

theorem calculateEnergy_mirror (a b : ℝ) (hg : (1e-9 : ℝ) < 2 * b) :
    calculateEnergy [⟨a, b, 0⟩, ⟨a, -b, 0⟩] = 1 / (2 * b) := by
  have hd : (Vec3.mk a b 0).distanceTo ⟨a, -b, 0⟩ = 2 * b :=
    distanceTo_mirror a b (by nlinarith)
  rw [calculateEnergy_pair _ _ (by rw [hd]; exact hg), hd]

/-- One gradient-descent iteration on the mirror-symmetric two-point
configuration `(a, ±b, 0)` in closed form: the tangential force is
`(−a/(4b), ±a²/(4b²), 0)`, so the advanced, re-normalized points are as
below. -/
theorem gdStep_mirror (lr a b : ℝ) (hg : (1e-9 : ℝ) < 2 * b)
    (hunit : a * a + b * b = 1) :
    gdStep lr [⟨a, b, 0⟩, ⟨a, -b, 0⟩] =
      [Vec3.normalize ⟨a - lr * (a / (4 * b)), b + lr * (a * a / (4 * (b * b))), 0⟩,
       Vec3.normalize ⟨a - lr * (a / (4 * b)), -(b + lr * (a * a / (4 * (b * b)))), 0⟩] := by
  have hb : 0 < b := by nlinarith
  have hbne : b ≠ 0 := hb.ne'
  have ha2 : a * a = 1 - b * b := by linarith
  unfold gdStep computeForces
  have hlen : ([(⟨a, b, 0⟩ : Vec3), ⟨a, -b, 0⟩] : List Vec3).length = 2 := rfl
  rw [hlen]
  have hpl : pairList 2 = [(0, 1)] := rfl
  rw [hpl, List.foldl_cons, List.foldl_nil]
  unfold applyPairForce
  dsimp only
  simp only [List.getD_cons_zero, List.getD_cons_succ, Vec3.sub_mk,
    Vec3.lengthSq_mk]
  have hsq : Real.sqrt ((a - a) * (a - a) + (b - -b) * (b - -b) + (0 - 0) * (0 - 0)) =
      2 * b := by
    apply sqrtEq
    · linarith
    · ring
  rw [hsq, if_pos hg]
  have hdef : (default : Vec3) = ⟨0, 0, 0⟩ := rfl
  simp only [List.replicate, hdef, Vec3.smul_mk, Vec3.add_mk, Vec3.sub_mk,
    List.set_cons_zero, List.set_cons_succ, List.getD_cons_zero,
    List.getD_cons_succ, List.zipWith_cons_cons, List.zipWith_nil_left]
  unfold gdUpdatePoint
  dsimp only
  simp only [Vec3.dot_mk, Vec3.smul_mk, Vec3.sub_mk, Vec3.add_mk]
  rw [List.cons.injEq, List.cons.injEq]
  refine ⟨?_, ?_, rfl⟩
  · congr 1
    rw [Vec3.mk.injEq]
    rw [ha2]
    refine ⟨?_, ?_, by ring⟩
    · field_simp
      ring
    · field_simp
      ring
  · congr 1
    rw [Vec3.mk.injEq]
    rw [ha2]
    refine ⟨?_, ?_, by ring⟩
    · field_simp
      ring
    · field_simp
      ring

/-- The energy of the mirror pair after a re-normalization whose norm is
irrational, in closed form `1/√(4y²/(x²+y²))`. -/
theorem calculateEnergy_mirror_normalized (x y : ℝ) (hy : 0 < y)
    (hg : ((1e-9 : ℝ)) ^ 2 < 4 * (y * y) / (x * x + y * y)) :
    calculateEnergy [Vec3.normalize ⟨x, y, 0⟩, Vec3.normalize ⟨x, -y, 0⟩] =
      1 / Real.sqrt (4 * (y * y) / (x * x + y * y)) := by
  have hS : 0 < x * x + y * y := by nlinarith
  have hlsq1 : (Vec3.mk x y 0).lengthSq = x * x + y * y := by
    simp only [Vec3.lengthSq_mk]
    ring
  have hlsq2 : (Vec3.mk x (-y) 0).lengthSq = x * x + y * y := by
    simp only [Vec3.lengthSq_mk]
    ring
  have hlen1 : (Vec3.mk x y 0).len = Real.sqrt (x * x + y * y) := by
    unfold Vec3.len
    rw [hlsq1]
  have hlen2 : (Vec3.mk x (-y) 0).len = Real.sqrt (x * x + y * y) := by
    unfold Vec3.len
    rw [hlsq2]
  have hcpos : 0 < Real.sqrt (x * x + y * y) := Real.sqrt_pos.mpr hS
  have hn1 : Vec3.normalize ⟨x, y, 0⟩ =
      ⟨(1 / Real.sqrt (x * x + y * y)) * x, (1 / Real.sqrt (x * x + y * y)) * y,
        (1 / Real.sqrt (x * x + y * y)) * 0⟩ := by
    unfold Vec3.normalize
    rw [hlen1, if_neg hcpos.ne']
    rfl
  have hn2 : Vec3.normalize ⟨x, -y, 0⟩ =
      ⟨(1 / Real.sqrt (x * x + y * y)) * x, (1 / Real.sqrt (x * x + y * y)) * (-y),
        (1 / Real.sqrt (x * x + y * y)) * 0⟩ := by
    unfold Vec3.normalize
    rw [hlen2, if_neg hcpos.ne']
    rfl
  have hssq : Real.sqrt (x * x + y * y) * Real.sqrt (x * x + y * y) =
      x * x + y * y := Real.mul_self_sqrt hS.le
  have hdist : (Vec3.normalize ⟨x, y, 0⟩).distanceTo (Vec3.normalize ⟨x, -y, 0⟩) =
      Real.sqrt (4 * (y * y) / (x * x + y * y)) := by
    rw [hn1, hn2]
    unfold Vec3.distanceTo Vec3.len
    simp only [Vec3.sub_mk, Vec3.lengthSq_mk]
    congr 1
    field_simp
    ring
  rw [calculateEnergy_pair]
  · rw [hdist]
  · rw [hdist]
    have h9 : (0 : ℝ) ≤ 1e-9 := by norm_num
    exact (Real.lt_sqrt h9).mpr hg

theorem recip_sqrt_gt (q e : ℝ) (he : 0 < e) (hq : 0 < q) (h : q < (1 / e) ^ 2) :
    e < 1 / Real.sqrt q := by
  have h1 : Real.sqrt q < 1 / e := (Real.sqrt_lt' (by positivity)).mpr h
  have h2 : 0 < Real.sqrt q := Real.sqrt_pos.mpr hq
  calc e = 1 / (1 / e) := by field_simp
    _ < 1 / Real.sqrt q := one_div_lt_one_div_of_lt h2 h1

theorem gdAux_succ (lr threshold : ℝ) (fuel : ℕ) (pts : List Vec3) (cur : ℝ)
    (delta : Option ℝ) (h : deltaGT threshold delta) :
    gdAux lr threshold (fuel + 1) pts cur delta =
      ((gdAux lr threshold fuel (gdStep lr pts) (calculateEnergy (gdStep lr pts))
          (some |cur - calculateEnergy (gdStep lr pts)|)).1,
        cur :: (gdAux lr threshold fuel (gdStep lr pts)
          (calculateEnergy (gdStep lr pts))
          (some |cur - calculateEnergy (gdStep lr pts)|)).2) := by
  rw [gdAux, if_pos h]

/-! #### The concrete configuration refuting within-call energy descent

Starting from `(3/5, ±4/5, 0)` with learning rate `333/25`, the first
iteration lands on the rational configuration `(−3036/5245, ±4277/5245, 0)`
(energy `5245/8554 ≈ 0.6132`, down from `5/8`), and the second iteration
overshoots: its energy `≈ 0.6149` is strictly larger. -/

def cexP0 : Vec3 := ⟨3 / 5, 4 / 5, 0⟩

def cexP1 : Vec3 := ⟨3 / 5, -(4 / 5), 0⟩

def cexQ0 : Vec3 := ⟨-(3036 / 5245), 4277 / 5245, 0⟩

def cexQ1 : Vec3 := ⟨-(3036 / 5245), -(4277 / 5245), 0⟩

def cexPts : List Vec3 := [cexP0, cexP1]

theorem cex_energy0 : calculateEnergy cexPts = 5 / 8 := by
  unfold cexPts cexP0 cexP1
  rw [calculateEnergy_mirror _ _ (by norm_num)]
  norm_num

theorem cex_step1 : gdStep (333 / 25) cexPts = [cexQ0, cexQ1] := by
  unfold cexPts cexP0 cexP1
  rw [gdStep_mirror _ _ _ (by norm_num) (by norm_num)]
  rw [normalize_mk_rat _ _ (5245 / 1600) (by norm_num) (by norm_num)]
  rw [normalize_mk_rat _ _ (5245 / 1600) (by norm_num) (by norm_num)]
  unfold cexQ0 cexQ1
  rw [List.cons.injEq, List.cons.injEq, Vec3.mk.injEq, Vec3.mk.injEq]
  norm_num

theorem cex_energy1 : calculateEnergy [cexQ0, cexQ1] = 5245 / 8554 := by
  unfold cexQ0 cexQ1
  rw [calculateEnergy_mirror _ _ (by norm_num)]
  norm_num

theorem cex_energy2_gt :
    5245 / 8554 < calculateEnergy (gdStep (333 / 25) [cexQ0, cexQ1]) := by
  unfold cexQ0 cexQ1
  rw [gdStep_mirror _ _ _ (by norm_num) (by norm_num)]
  rw [calculateEnergy_mirror_normalized _ _ (by norm_num) (by norm_num)]
  apply recip_sqrt_gt _ _ (by norm_num) (by norm_num)
  norm_num

theorem cex_trace_shape :
    ∃ t, gdTrace (333 / 25) 1e-8 cexPts =
      5 / 8 :: 5245 / 8554 ::
        calculateEnergy (gdStep (333 / 25) [cexQ0, cexQ1]) :: t := by
  unfold gdTrace
  rw [cex_energy0]
  rw [show maxIter = 9999 + 1 from rfl]
  rw [gdAux_succ (333 / 25) 1e-8 9999 cexPts (5 / 8) none trivial]
  rw [cex_step1, cex_energy1]
  rw [show (9999 : ℕ) = 9998 + 1 from rfl]
  rw [gdAux_succ _ _ _ _ _ _ (by
    show deltaGT _ (some _)
    unfold deltaGT
    rw [abs_of_pos (by norm_num)]
    norm_num)]
  obtain ⟨t, ht⟩ := gdAux_snd_head (333 / 25) 1e-8 9998
    (gdStep (333 / 25) [cexQ0, cexQ1])
    (calculateEnergy (gdStep (333 / 25) [cexQ0, cexQ1]))
    (some |5245 / 8554 - calculateEnergy (gdStep (333 / 25) [cexQ0, cexQ1])|)
  rw [ht]
  exact ⟨t, rfl⟩

/-! #### Evaluating one recombination pass on a concrete population

A four-member population of one-point configurations.  With the oracle
below, iteration 0 of the recombination pass writes a brand-new
configuration `[(0,0,−1)]` into slot 3, and iteration 1's first
tournament then draws index 3 three times — selecting the just-written
child as a parent, which is not a member of the pre-pass population. -/

theorem normalize_of_isUnit {p : Vec3} (h : p.IsUnit) : p.normalize = p := by
  unfold Vec3.normalize
  rw [Vec3.len_of_isUnit h, if_neg one_ne_zero]
  cases p with
  | mk x y z =>
    simp only [Vec3.smul_mk, Vec3.mk.injEq]
    norm_num

theorem gdStep_single (lr : ℝ) {p : Vec3} (h : p.IsUnit) :
    gdStep lr [p] = [p] := by
  unfold gdStep computeForces
  have hlen : ([p] : List Vec3).length = 1 := rfl
  rw [hlen]
  have hpl : pairList 1 = [] := rfl
  rw [hpl, List.foldl_nil]
  show [gdUpdatePoint lr p default] = [p]
  unfold gdUpdatePoint
  dsimp only
  have hdef : (default : Vec3) = ⟨0, 0, 0⟩ := rfl
  cases p with
  | mk x y z =>
    rw [hdef]
    simp only [Vec3.dot_mk, Vec3.smul_mk, Vec3.sub_mk, Vec3.add_mk]
    have hfix : (Vec3.mk (x + lr * (0 - (0 * x + 0 * y + 0 * z) * x))
        (y + lr * (0 - (0 * x + 0 * y + 0 * z) * y))
        (z + lr * (0 - (0 * x + 0 * y + 0 * z) * z))) = ⟨x, y, z⟩ := by
      rw [Vec3.mk.injEq]
      refine ⟨by ring, by ring, by ring⟩
    rw [hfix, normalize_of_isUnit h]

theorem calculateEnergy_single (p : Vec3) : calculateEnergy [p] = 0 := by
  simp [calculateEnergy, rowEnergy]

/-- On a one-point configuration, the local optimizer converges after one
iteration (zero force, zero energy change) and returns the point
unchanged. -/
theorem gradientDescent_single (lr threshold : ℝ) (hth : 0 ≤ threshold)
    {p : Vec3} (h : p.IsUnit) : gradientDescent lr threshold [p] = [p] := by
  unfold gradientDescent
  rw [calculateEnergy_single]
  rw [show maxIter = 9999 + 1 from rfl]
  rw [gdAux_succ lr threshold 9999 [p] 0 none trivial]
  rw [gdStep_single lr h, calculateEnergy_single]
  rw [gdAux_of_not_gt _ _ _ _ _ _ (by
    unfold deltaGT
    rw [not_lt, abs_of_nonneg (by norm_num)]
    simpa using hth)]

theorem rp_half_half : randomPointOnSphere (1 / 2) (1 / 2) = ⟨-1, 0, 0⟩ := by
  unfold randomPointOnSphere
  dsimp only
  rw [show 2 * Real.pi * (1 / 2 : ℝ) = Real.pi by ring,
    show 2 * (1 / 2 : ℝ) - 1 = 0 by norm_num,
    Real.arccos_zero, Real.sin_pi_div_two, Real.cos_pi, Real.sin_pi,
    Real.cos_pi_div_two]
  rw [Vec3.mk.injEq]
  norm_num

theorem rp_zero_zero : randomPointOnSphere 0 0 = ⟨0, 0, -1⟩ := by
  unfold randomPointOnSphere
  dsimp only
  rw [show 2 * Real.pi * (0 : ℝ) = 0 by ring,
    show 2 * (0 : ℝ) - 1 = -1 by norm_num,
    Real.arccos_neg_one, Real.sin_pi, Real.cos_zero, Real.sin_zero,
    Real.cos_pi]
  rw [Vec3.mk.injEq]
  norm_num

def exA : Vec3 := ⟨1, 0, 0⟩

def exB : Vec3 := ⟨0, 1, 0⟩

def exC : Vec3 := ⟨0, 0, 1⟩

def exD : Vec3 := ⟨-1, 0, 0⟩

def exChildPt : Vec3 := ⟨0, 0, -1⟩

/-- The pre-pass population of the concrete scenario. -/
def exPop : List Individual :=
  [⟨[exA], 0⟩, ⟨[exB], 0⟩, ⟨[exC], 0⟩, ⟨[exD], 0⟩]

/-- The oracle of the concrete scenario: iteration 0 draws parents 0 and
1, splits along `(−1,0,0)` (so the child keeps neither parent point and
is padded with the fresh point `(0,0,−1)`), skips mutation; iteration 1's
first tournament draws index 3 three times. -/
def exOracle : StepOracle where
  t1 := fun i => if i = 0 then (0, 0, 0) else (3, 3, 3)
  t2 := fun _ => (1, 1, 1)
  normalUV := fun _ => (1 / 2, 1 / 2)
  padRnd := fun _ _ => (0, 0)
  mutR := fun _ => 1 / 2
  mutIdx := fun _ => 0
  mutUV := fun _ => (0, 0)

theorem ex_tournament0 : tournamentSelect exPop (0, 0, 0) = ⟨[exA], 0⟩ := by
  unfold tournamentSelect exPop
  dsimp only
  simp only [List.getD_cons_zero]
  norm_num

theorem ex_tournament1 : tournamentSelect exPop (1, 1, 1) = ⟨[exB], 0⟩ := by
  unfold tournamentSelect exPop
  dsimp only
  simp only [List.getD_cons_succ, List.getD_cons_zero]
  norm_num

theorem ex_crossover :
    crossover 1 ⟨-1, 0, 0⟩ (exOracle.padRnd 0) [exA] [exB] = [exChildPt] := by
  unfold crossover crossoverInit exA exB
  dsimp only
  have hfA : List.filter (fun p => decide (p.dot ⟨-1, 0, 0⟩ ≥ 0)) [(⟨1, 0, 0⟩ : Vec3)] = [] := by
    simp only [List.filter, Vec3.dot_mk]
    norm_num
  have hfB : List.filter (fun p => decide (p.dot ⟨-1, 0, 0⟩ < 0)) [(⟨0, 1, 0⟩ : Vec3)] = [] := by
    simp only [List.filter, Vec3.dot_mk]
    norm_num
  rw [hfA, hfB]
  show trimGo 1 (padGo 1 (exOracle.padRnd 0) 1 0 []).length
    (padGo 1 (exOracle.padRnd 0) 1 0 []) = [exChildPt]
  have hpad : padGo 1 (exOracle.padRnd 0) 1 0 [] = [exChildPt] := by
    rw [padGo]
    rw [if_pos (by norm_num)]
    rw [padGo]
    have : exOracle.padRnd 0 0 = (0, 0) := rfl
    rw [this]
    dsimp only
    rw [rp_zero_zero]
    rfl
  rw [hpad]
  rw [show ([exChildPt] : List Vec3).length = 0 + 1 from rfl]
  rw [trimGo]
  rw [if_neg (by norm_num)]

theorem ex_mutate :
    mutate (1 / 5) (exOracle.mutR 0) (exOracle.mutIdx 0) (exOracle.mutUV 0)
      [exChildPt] = [exChildPt] := by
  unfold mutate
  rw [if_neg (by norm_num [exOracle])]

theorem ex_child_unit : exChildPt.IsUnit := by
  unfold exChildPt Vec3.IsUnit Vec3.lengthSq
  norm_num

/-- Iteration 0 of the recombination pass on the concrete scenario:
the child `[(0,0,−1)]` replaces slot 3. -/
theorem ex_passBody0 :
    passBody 1 4 (1 / 5) (1 / 100) 1e-8 exOracle exPop 0 =
      [⟨[exA], 0⟩, ⟨[exB], 0⟩, ⟨[exC], 0⟩, ⟨[exChildPt], 0⟩] := by
  unfold passBody
  dsimp only
  have ht1 : exOracle.t1 0 = (0, 0, 0) := rfl
  have ht2 : exOracle.t2 0 = (1, 1, 1) := rfl
  have hnuv : exOracle.normalUV 0 = (1 / 2, 1 / 2) := rfl
  rw [ht1, ht2, hnuv, ex_tournament0, ex_tournament1]
  dsimp only
  rw [rp_half_half, ex_crossover, ex_mutate,
    gradientDescent_single _ _ (by norm_num) ex_child_unit,
    calculateEnergy_single]
  rfl

/-- After iteration 0, iteration 1's first tournament (indices `3,3,3`)
selects the just-written child. -/
theorem ex_selected_child :
    tournamentSelect
      (passPopAt 1 4 (1 / 5) (1 / 100) 1e-8 exOracle exPop 1)
      (exOracle.t1 1) = ⟨[exChildPt], 0⟩ := by
  have hpass : passPopAt 1 4 (1 / 5) (1 / 100) 1e-8 exOracle exPop 1 =
      [⟨[exA], 0⟩, ⟨[exB], 0⟩, ⟨[exC], 0⟩, ⟨[exChildPt], 0⟩] := by
    unfold passPopAt
    rw [show List.range 1 = [0] from rfl, List.foldl_cons, List.foldl_nil]
    exact ex_passBody0
  rw [hpass]
  have ht1 : exOracle.t1 1 = (3, 3, 3) := rfl
  rw [ht1]
  unfold tournamentSelect
  dsimp only
  simp only [List.getD_cons_succ, List.getD_cons_zero]
  norm_num

/-- The selected child is not a member of the pre-pass population. -/
theorem ex_child_not_mem : (⟨[exChildPt], 0⟩ : Individual) ∉ exPop := by
  unfold exPop exChildPt exA exB exC exD
  intro hmem
  simp only [List.mem_cons, List.not_mem_nil, or_false] at hmem
  rcases hmem with h | h | h | h <;>
  · rw [Individual.mk.injEq] at h
    have := h.1
    rw [List.cons.injEq] at this
    rw [Vec3.mk.injEq] at this
    norm_num at this

/-! ### The claims -/

theorem len_close_of_isUnit {p : Vec3} (h : p.IsUnit) : |p.len - 1| ≤ 1e-6 := by
  rw [Vec3.len_of_isUnit h]
  norm_num

/-- C1: `calculateEnergy` returns the sum over all unordered index pairs
`i < j` of `1/distance`, with any pair at distance ≤ 1e-9 contributing the
penalty `1e9` instead; in particular it returns `0` for configurations of
length ≤ 1 and `1/distance(p0,p1)` for two points beyond the cutoff. -/
theorem claim_C1 :
    (∀ pts : List Vec3, calculateEnergy pts = specEnergy pts) ∧
    (∀ pts : List Vec3, pts.length ≤ 1 → calculateEnergy pts = 0) ∧
    (∀ p q : Vec3, 1e-9 < p.distanceTo q →
      calculateEnergy [p, q] = 1 / p.distanceTo q) :=
  ⟨calculateEnergy_eq_specEnergy, calculateEnergy_short,
    fun p q h => calculateEnergy_pair p q h⟩

/-- Witness for C1 at the antipodal pair `(0,0,1)`, `(0,0,−1)` (distance
`2`) and at the empty configuration. -/
theorem claim_C1_witness :
    (1e-9 : ℝ) < (Vec3.mk 0 0 1).distanceTo ⟨0, 0, -1⟩ ∧
    calculateEnergy [⟨0, 0, 1⟩, ⟨0, 0, -1⟩] =
      1 / (Vec3.mk 0 0 1).distanceTo ⟨0, 0, -1⟩ ∧
    calculateEnergy ([] : List Vec3) = 0 := by
  have hd : (Vec3.mk 0 0 1).distanceTo ⟨0, 0, -1⟩ = 2 := by
    unfold Vec3.distanceTo Vec3.len
    simp only [Vec3.sub_mk, Vec3.lengthSq_mk]
    apply sqrtEq
    · norm_num
    · norm_num
  have hgt : (1e-9 : ℝ) < (Vec3.mk 0 0 1).distanceTo ⟨0, 0, -1⟩ := by
    rw [hd]; norm_num
  exact ⟨hgt, claim_C1.2.2 _ _ hgt, claim_C1.2.1 [] (by simp)⟩

/-- C2: after a gradient-descent iteration, a mutation, or a crossover on
unit-norm configurations — and for every fresh sphere sample — every
resulting point has Euclidean norm `1` within `1e-6` (in the real-number
model the norm is exactly `1`). -/
theorem claim_C2 :
    (∀ (lr : ℝ) (pts : List Vec3), (∀ p ∈ pts, p.IsUnit) →
      ∀ q ∈ gdStep lr pts, |q.len - 1| ≤ 1e-6) ∧
    (∀ (mutationRate r : ℝ) (idx : ℕ) (uv : ℝ × ℝ) (pts : List Vec3),
      (∀ p ∈ pts, p.IsUnit) →
      ∀ q ∈ mutate mutationRate r idx uv pts, |q.len - 1| ≤ 1e-6) ∧
    (∀ (n : ℕ) (normal : Vec3) (rnd : ℕ → ℝ × ℝ) (pA pB : List Vec3),
      (∀ p ∈ pA, p.IsUnit) → (∀ p ∈ pB, p.IsUnit) →
      ∀ q ∈ crossover n normal rnd pA pB, |q.len - 1| ≤ 1e-6) ∧
    (∀ u v : ℝ, |(randomPointOnSphere u v).len - 1| ≤ 1e-6) := by
  refine ⟨?_, ?_, ?_, ?_⟩
  · intro lr pts h q hq
    exact len_close_of_isUnit (gdStep_isUnit lr h q hq)
  · intro mutationRate r idx uv pts h q hq
    exact len_close_of_isUnit (mutate_isUnit mutationRate r idx uv h q hq)
  · intro n normal rnd pA pB hA hB q hq
    exact len_close_of_isUnit (crossover_isUnit n normal rnd hA hB q hq)
  · intro u v
    exact len_close_of_isUnit (isUnit_randomPointOnSphere u v)

/-- Witness for C2 on concrete unit configurations. -/
theorem claim_C2_witness :
    (∀ q ∈ gdStep (1 / 100) [exC], |q.len - 1| ≤ 1e-6) ∧
    (∀ q ∈ mutate (1 / 5) (1 / 2) 0 (0, 0) [exC], |q.len - 1| ≤ 1e-6) ∧
    (∀ q ∈ crossover 2 exA (fun _ => (0, 0)) [exC] [exD], |q.len - 1| ≤ 1e-6) := by
  have hC : ∀ p ∈ ([exC] : List Vec3), p.IsUnit := by
    intro p hp
    simp only [List.mem_singleton] at hp
    subst hp
    unfold exC Vec3.IsUnit Vec3.lengthSq
    norm_num
  have hD : ∀ p ∈ ([exD] : List Vec3), p.IsUnit := by
    intro p hp
    simp only [List.mem_singleton] at hp
    subst hp
    unfold exD Vec3.IsUnit Vec3.lengthSq
    norm_num
  exact ⟨claim_C2.1 (1 / 100) [exC] hC,
    claim_C2.2.1 (1 / 5) (1 / 2) 0 (0, 0) [exC] hC,
    claim_C2.2.2.1 2 exA (fun _ => (0, 0)) [exC] [exD] hC hD⟩

/-- C3: across any sequence of `step()` calls the recorded best energy is
non-increasing; `updateBest` changes it only to the strictly lower
minimum energy of the sorted population; and the recorded best
configuration is built from fresh clones (heap model), so it never
aliases a population member and holds exact copies of the minimum's
points. -/
theorem claim_C3 :
    (∀ (mutationRate lr threshold : ℝ) (orcs : List StepOracle) (s : SimState),
      (stepMany mutationRate lr threshold orcs s).bestEnergy ≤ s.bestEnergy) ∧
    (∀ (mutationRate lr threshold : ℝ) (orc : StepOracle) (s : SimState),
      (step mutationRate lr threshold orc s).1.bestEnergy ≤ s.bestEnergy) ∧
    (∀ s : SimState, (updateBest s).bestEnergy ≠ s.bestEnergy →
      (updateBest s).bestEnergy < s.bestEnergy ∧
      (updateBest s).bestEnergy =
        (((sortByEnergy s.population).headD default).energy : WithTop ℝ) ∧
      ∀ ind ∈ s.population,
        ((sortByEnergy s.population).headD default).energy ≤ ind.energy) ∧
    (∀ (addrs : List ℕ) (st : Store),
      (∀ c ∈ (cloneConfigS addrs st).2, st.next ≤ c) ∧
      (∀ a, a < st.next → (cloneConfigS addrs st).1.mem a = st.mem a)) ∧
    (∀ (addrs : List ℕ) (st : Store), (∀ a ∈ addrs, a < st.next) →
      List.Forall₂ (fun a c => (cloneConfigS addrs st).1.mem c = st.mem a)
        addrs (cloneConfigS addrs st).2) :=
  ⟨stepMany_bestEnergy_le, step_bestEnergy_le, updateBest_strict,
    fun addrs st => ⟨(cloneConfigS_spec addrs st).2.2, (cloneConfigS_spec addrs st).2.1⟩,
    cloneConfigS_values⟩

/-- Witness for C3: a single-member population whose best record strictly
improves from `Infinity`, and a concrete one-address clone. -/
theorem claim_C3_witness :
    ((updateBest ⟨1, 1, [⟨[], 0⟩], ⊤, none⟩).bestEnergy ≠
      (SimState.mk 1 1 [⟨[], 0⟩] ⊤ none).bestEnergy) ∧
    (updateBest ⟨1, 1, [⟨[], 0⟩], ⊤, none⟩).bestEnergy <
      (SimState.mk 1 1 [⟨[], 0⟩] ⊤ none).bestEnergy ∧
    (∀ a ∈ ([0] : List ℕ), a < (Store.mk (fun _ => ⟨0, 0, 0⟩) 1).next) ∧
    List.Forall₂
      (fun a c => (cloneConfigS [0] ⟨fun _ => ⟨0, 0, 0⟩, 1⟩).1.mem c =
        (Store.mk (fun _ => ⟨0, 0, 0⟩) 1).mem a)
      [0] (cloneConfigS [0] ⟨fun _ => ⟨0, 0, 0⟩, 1⟩).2 := by
  have hbe : (updateBest ⟨1, 1, [⟨[], 0⟩], ⊤, none⟩).bestEnergy = ((0 : ℝ) : WithTop ℝ) := by
    unfold updateBest
    dsimp only
    rw [if_pos (WithTop.coe_lt_top _)]
    rfl
  have hne : (updateBest ⟨1, 1, [⟨[], 0⟩], ⊤, none⟩).bestEnergy ≠
      (SimState.mk 1 1 [⟨[], 0⟩] ⊤ none).bestEnergy := by
    rw [hbe]
    exact fun hc => WithTop.coe_ne_top hc
  have hvalid : ∀ a ∈ ([0] : List ℕ), a < (Store.mk (fun _ => (⟨0, 0, 0⟩ : Vec3)) 1).next := by
    intro a ha
    simp only [List.mem_singleton] at ha
    subst ha
    norm_num
  exact ⟨hne, (claim_C3.2.2.1 _ hne).1, hvalid, claim_C3.2.2.2.2 [0] _ hvalid⟩

/-- C4: `crossover` returns exactly `n` points for any parents, normal
and random draws; it is the half-space filters of the two parents
followed by padding and trimming; and on any child with at least two
points, the trimming scan removes the lower index of a globally closest
pair. -/
theorem claim_C4 :
    (∀ (n : ℕ) (normal : Vec3) (rnd : ℕ → ℝ × ℝ) (pA pB : List Vec3),
      (crossover n normal rnd pA pB).length = n) ∧
    (∀ (n : ℕ) (normal : Vec3) (rnd : ℕ → ℝ × ℝ) (pA pB : List Vec3),
      crossover n normal rnd pA pB =
        trimGo n (padGo n rnd n 0 (crossoverInit normal pA pB)).length
          (padGo n rnd n 0 (crossoverInit normal pA pB)) ∧
      crossoverInit normal pA pB =
        pA.filter (fun p => decide (p.dot normal ≥ 0)) ++
          pB.filter (fun p => decide (p.dot normal < 0))) ∧
    (∀ child : List Vec3, 2 ≤ child.length →
      ∃ i j, findRemoveIdx child = some i ∧ i < j ∧ j < child.length ∧
        ∀ a b, a < b → b < child.length →
          (child.getD i default).distanceTo (child.getD j default) ≤
            (child.getD a default).distanceTo (child.getD b default)) :=
  ⟨crossover_length, fun _ _ _ _ _ => ⟨rfl, rfl⟩, findRemoveIdx_spec⟩

/-- Witness for C4 at a two-point child. -/
theorem claim_C4_witness :
    2 ≤ ([exC, exD] : List Vec3).length ∧
    ∃ i j, findRemoveIdx [exC, exD] = some i ∧ i < j ∧
      j < ([exC, exD] : List Vec3).length ∧
      ∀ a b, a < b → b < ([exC, exD] : List Vec3).length →
        (([exC, exD] : List Vec3).getD i default).distanceTo
            (([exC, exD] : List Vec3).getD j default) ≤
          (([exC, exD] : List Vec3).getD a default).distanceTo
            (([exC, exD] : List Vec3).getD b default) := by
  have h2 : 2 ≤ ([exC, exD] : List Vec3).length := by simp
  exact ⟨h2, claim_C4.2.2 [exC, exD] h2⟩

/-- C5 as stated is false: the energy evaluations taken after each
iteration of one `gradientDescent` invocation need not be non-increasing.
From `(3/5, ±4/5, 0)` with learning rate `333/25`, the evaluation after
iteration 2 strictly exceeds the one after iteration 1 (≈0.6149 vs
≈0.6132, an increase far beyond floating tolerance). -/
theorem claim_C5_counterexample :
    ¬ ∀ (lr threshold : ℝ) (pts : List Vec3),
        ((gdTrace lr threshold pts).tail).Chain' (fun a b => b ≤ a) := by
  intro hall
  have h := hall (333 / 25) 1e-8 cexPts
  obtain ⟨t, ht⟩ := cex_trace_shape
  rw [ht, List.tail_cons, List.chain'_cons] at h
  exact absurd cex_energy2_gt (not_lt.mpr h.1)

/-- C5 amended: energy evaluations inside one `gradientDescent`
invocation may increase; what the loop guarantees is that every iteration
beyond the next is entered only because the previous two evaluations
differed by more than the convergence threshold (and it stops as soon as
they do not). -/
theorem claim_C5_amended :
    ∀ (lr threshold : ℝ) (pts : List Vec3) (i : ℕ),
      i + 2 < (gdTrace lr threshold pts).length →
      threshold < |(gdTrace lr threshold pts).getD i 0 -
        (gdTrace lr threshold pts).getD (i + 1) 0| :=
  fun lr threshold pts i h =>
    gdAux_gap lr threshold maxIter pts (calculateEnergy pts) none i h

/-- Witness for the amended C5 on the concrete two-point run (three
evaluations happen, and the first gap exceeds the threshold). -/
theorem claim_C5_amended_witness :
    0 + 2 < (gdTrace (333 / 25) 1e-8 cexPts).length ∧
    (1e-8 : ℝ) < |(gdTrace (333 / 25) 1e-8 cexPts).getD 0 0 -
      (gdTrace (333 / 25) 1e-8 cexPts).getD 1 0| := by
  obtain ⟨t, ht⟩ := cex_trace_shape
  have hlen : 0 + 2 < (gdTrace (333 / 25) 1e-8 cexPts).length := by
    rw [ht]
    simp only [List.length_cons]
    omega
  exact ⟨hlen, claim_C5_amended (333 / 25) 1e-8 cexPts 0 hlen⟩

/-- C6 as stated is false: tournament parents are drawn from the live
population array, which the recombination pass is mutating; at the
concrete scenario's iteration 1 the selected parent is the child written
in iteration 0, not a member of the pre-pass population. -/
theorem claim_C6_counterexample :
    ¬ ∀ (n popSize : ℕ) (mutationRate lr threshold : ℝ) (orc : StepOracle)
        (pop : List Individual) (i : ℕ), i < popSize / 2 →
        tournamentSelect (passPopAt n popSize mutationRate lr threshold orc pop i)
            (orc.t1 i) ∈ pop ∧
        tournamentSelect (passPopAt n popSize mutationRate lr threshold orc pop i)
            (orc.t2 i) ∈ pop := by
  intro hall
  have h := (hall 1 4 (1 / 5) (1 / 100) 1e-8 exOracle exPop 1 (by norm_num)).1
  rw [ex_selected_child] at h
  exact ex_child_not_mem h

/-- C6 amended: every tournament-selected parent is a member of the
population state current at its iteration of the pass — a state that
already contains the children written at earlier iterations (which can
therefore be selected as parents). -/
theorem claim_C6_amended :
    ∀ (n popSize : ℕ) (mutationRate lr threshold : ℝ) (orc : StepOracle)
      (pop : List Individual) (i : ℕ) (idxs : ℕ × ℕ × ℕ),
      idxs.1 < pop.length → idxs.2.1 < pop.length → idxs.2.2 < pop.length →
      tournamentSelect (passPopAt n popSize mutationRate lr threshold orc pop i)
        idxs ∈ passPopAt n popSize mutationRate lr threshold orc pop i := by
  intro n popSize mutationRate lr threshold orc pop i idxs h1 h2 h3
  apply tournamentSelect_mem <;> rw [passPopAt_length] <;> assumption

/-- Witness for the amended C6 at the concrete scenario (iteration 1,
indices `3,3,3`: the selected parent — the freshly written child — is a
member of the current pass population). -/
theorem claim_C6_amended_witness :
    (3 < exPop.length) ∧
    tournamentSelect (passPopAt 1 4 (1 / 5) (1 / 100) 1e-8 exOracle exPop 1)
        (3, 3, 3) ∈ passPopAt 1 4 (1 / 5) (1 / 100) 1e-8 exOracle exPop 1 := by
  have h3 : 3 < exPop.length := by
    unfold exPop
    simp
  exact ⟨h3, claim_C6_amended 1 4 (1 / 5) (1 / 100) 1e-8 exOracle exPop 1
    (3, 3, 3) h3 h3 h3⟩

/-- C7: on at least four points, the hull analyzer equals the
specification pipeline — first-occurrence dedup by canonical rounded
keys over the raw discovery-order edges, greedy first-fit grouping, sort
by representative length — and its output groups are sorted ascending by
representative length, have their first member as representative, and
keep every member within `1e-2` of the representative. -/
theorem claim_C7 :
    ∀ (hull : List Vec3 → List Tri) (points : List Vec3), 4 ≤ points.length →
      calculateEdgeGroups hull points =
        stableSortBy (fun g => g.len)
          (groupEdges (specDedup [] (rawEdges (hull points)))) ∧
      (calculateEdgeGroups hull points).Pairwise (fun g1 g2 => g1.len ≤ g2.len) ∧
      ∀ g ∈ calculateEdgeGroups hull points,
        (∃ e t, g.edges = e :: t ∧ g.len = e.len) ∧
        ∀ e ∈ g.edges, |g.len - e.len| < 1e-2 := by
  intro hull points h4
  have hne : ¬ points.length < 4 := by omega
  unfold calculateEdgeGroups
  rw [if_neg hne]
  refine ⟨?_, ?_, ?_⟩
  · rw [collectEdges_spec]
  · exact stableSortBy_pairwise _ _
  · intro g hg
    have hmem : g ∈ groupEdges ((collectEdges (hull points)).map Prod.snd) :=
      (stableSortBy_perm _ _).mem_iff.mp hg
    exact groupEdges_inv _ g hmem

/-- Witness for C7 at a four-point input with the trivial hull. -/
theorem claim_C7_witness :
    4 ≤ ([exA, exB, exC, exD] : List Vec3).length ∧
    calculateEdgeGroups (fun _ => []) [exA, exB, exC, exD] =
      stableSortBy (fun g => g.len)
        (groupEdges (specDedup [] (rawEdges ([] : List Tri)))) := by
  have h4 : 4 ≤ ([exA, exB, exC, exD] : List Vec3).length := by simp
  exact ⟨h4, (claim_C7 (fun _ => []) [exA, exB, exC, exD] h4).1⟩

/-- C8: with fewer than four points the hull analyzer returns the empty
group list (the function is total — no error is raised). -/
theorem claim_C8 :
    ∀ (hull : List Vec3 → List Tri) (points : List Vec3),
      points.length < 4 → calculateEdgeGroups hull points = [] := by
  intro hull points h
  unfold calculateEdgeGroups
  rw [if_pos h]

/-- Witness for C8 at a three-point input. -/
theorem claim_C8_witness :
    ([exA, exB, exC] : List Vec3).length < 4 ∧
    calculateEdgeGroups (fun _ => []) [exA, exB, exC] = [] := by
  have h3 : ([exA, exB, exC] : List Vec3).length < 4 := by simp
  exact ⟨h3, claim_C8 (fun _ => []) [exA, exB, exC] h3⟩

/-- C9: every `gradientDescent` invocation terminates — the loop makes at
most `maxIter = 10000` iterations (the trace holds the initial evaluation
plus one per iteration), returns immediately as soon as the energy change
is no longer above the threshold, and exiting via the cap just returns
the points as they are. -/
theorem claim_C9 :
    (∀ (lr threshold : ℝ) (pts : List Vec3),
      (gdTrace lr threshold pts).length ≤ maxIter + 1) ∧
    maxIter = 10000 ∧
    (∀ (lr threshold : ℝ) (fuel : ℕ) (pts : List Vec3) (cur : ℝ)
      (delta : Option ℝ), ¬ deltaGT threshold delta →
      gdAux lr threshold fuel pts cur delta = (pts, [cur])) ∧
    (∀ (lr threshold : ℝ) (pts : List Vec3) (cur : ℝ) (delta : Option ℝ),
      gdAux lr threshold 0 pts cur delta = (pts, [cur])) :=
  ⟨fun lr threshold pts => gdAux_length_le lr threshold maxIter pts _ none,
    rfl, fun lr threshold => gdAux_of_not_gt lr threshold,
    fun lr threshold => gdAux_zero lr threshold⟩

/-- Witness for C9: a converged delta stops the loop immediately. -/
theorem claim_C9_witness :
    ¬ deltaGT (1e-8 : ℝ) (some 0) ∧
    gdAux (1 / 100) 1e-8 maxIter [] 0 (some 0) = ([], [0]) := by
  have h : ¬ deltaGT (1e-8 : ℝ) (some 0) := by
    unfold deltaGT
    norm_num
  exact ⟨h, claim_C9.2.2.1 (1 / 100) 1e-8 maxIter [] 0 (some 0) h⟩

/-- C10: `crossover` never modifies either parent (heap model: no
pre-existing address is written), and when the parent addresses are
valid, every child address is fresh — no child entry aliases a parent
entry, and the parents' stored points are bit-for-bit what they were
before the call. -/
theorem claim_C10 :
    ∀ (n : ℕ) (normal : Vec3) (rnd : ℕ → ℝ × ℝ) (s : Store)
      (parentA parentB : List ℕ),
      (∀ a, a < s.next →
        (crossoverS n normal rnd s parentA parentB).1.mem a = s.mem a) ∧
      ((∀ a ∈ parentA ++ parentB, a < s.next) →
        (∀ a ∈ parentA ++ parentB,
          (crossoverS n normal rnd s parentA parentB).1.mem a = s.mem a) ∧
        ∀ c ∈ (crossoverS n normal rnd s parentA parentB).2,
          c ∉ parentA ∧ c ∉ parentB) := by
  intro n normal rnd s parentA parentB
  obtain ⟨hmem, hfresh⟩ := crossoverS_spec n normal rnd s parentA parentB
  refine ⟨hmem, fun hvalid => ⟨fun a ha => hmem a (hvalid a ha), fun c hc => ?_⟩⟩
  have hge := hfresh c hc
  constructor
  · intro hcA
    have := hvalid c (List.mem_append.mpr (Or.inl hcA))
    omega
  · intro hcB
    have := hvalid c (List.mem_append.mpr (Or.inr hcB))
    omega

/-- Witness for C10: a two-address heap with one point per parent. -/
theorem claim_C10_witness :
    (∀ a ∈ ([0] ++ [1] : List ℕ), a < (Store.mk (fun _ => ⟨0, 0, 0⟩) 2).next) ∧
    ((∀ a ∈ ([0] ++ [1] : List ℕ),
      (crossoverS 2 exA (fun _ => (0, 0)) ⟨fun _ => ⟨0, 0, 0⟩, 2⟩ [0] [1]).1.mem a =
        (Store.mk (fun _ => ⟨0, 0, 0⟩) 2).mem a) ∧
      ∀ c ∈ (crossoverS 2 exA (fun _ => (0, 0)) ⟨fun _ => ⟨0, 0, 0⟩, 2⟩ [0] [1]).2,
        c ∉ ([0] : List ℕ) ∧ c ∉ ([1] : List ℕ)) := by
  have hvalid : ∀ a ∈ ([0] ++ [1] : List ℕ),
      a < (Store.mk (fun _ => (⟨0, 0, 0⟩ : Vec3)) 2).next := by
    intro a ha
    have hn : (Store.mk (fun _ => (⟨0, 0, 0⟩ : Vec3)) 2).next = 2 := rfl
    rw [hn]
    simp only [List.cons_append, List.nil_append, List.mem_cons,
      List.not_mem_nil, or_false] at ha
    omega
  exact ⟨hvalid,
    (claim_C10 2 exA (fun _ => (0, 0)) ⟨fun _ => ⟨0, 0, 0⟩, 2⟩ [0] [1]).2 hvalid⟩

end

end Thomson
